import Mathlib

/-! ## dryrun: a verification development for `dryrun.h`

A shallow embedding of the test engine `dry_run` and of the benchmark engine
`dry_run_benchmarks` of `dryrun.h`, and theorems about them.

Modelling decisions:

* `std::string` is `String`; `==` is equality and `<` is the lexicographic
  order of `String` (for UTF-8 text it is the order of the bytes).
* A `std::function` closes over the state of the embedding program.  That state
  is a type parameter `σ`: a case body is a function `σ → Bool × σ` (its
  return value and the state it leaves), a hook is a function `σ → σ`, and an
  empty `std::function` hook is `none`.  A registered body holds a callable, and
  bodies and hooks return; they do not touch the registry.
* `std::random_shuffle` is a parameter `shuffle` of `dry_run`; theorems that
  depend on its contract assume that it returns a permutation of its input.
* `dry_run` returns the registry, the state, and the trace of the events it
  performed, in order: every invocation of a callable and every write to
  standard output.  Standard output is the concatenation of the texts of the
  events.
* `dry_run_benchmarks` returns the state and its own trace of events; the
  text of each measured time is a parameter `clock` (the code reads the system
  clock).
* Statements on the bytes of standard output (`chars`, `tokens`, `strip_sgr`,
  `sgr_of`) are on the characters of `stdout`.
* `argv` is the list of its `argc` tokens.  The option scan completes
  (`scan_options argv = .done o`) exactly on the well-formed argument vectors
  without a help token (`scan_options_done_iff`); `o.repeat_count` is then the
  repeat value.
-/

namespace DryRun

/-! ## Constants (lines 19-25) -/

def COLOR_OFF : String := "\x1b[0m"
def COLOR_RED : String := "\x1b[31m"
def COLOR_GREEN : String := "\x1b[32m"
def COLOR_MAGENTA : String := "\x1b[35m"

/-- The text `print_help` writes (lines 28-37). -/
def help_text : String :=
  "Dry Run 0.1\nUsage: test [options]\nOptions:\n\n" ++
  "-d\t\tRun tests in determinate mode (non-randomized).\n" ++
  "-r\t\tRepeat tests multiple times. Ex: test -r 10\n" ++
  "-h,--help\tShow this help screen.\n" ++
  "-c\t\tUse ANSI colors for easier reading."

/-! ## Data model (lines 39-90) -/

/-- The struct `test_case`: a description and a body. -/
structure test_case (σ : Type) where
  desc : String
  test : σ → Bool × σ

/-- The struct `test_suite`: the test list and the four hook slots. -/
structure test_suite (σ : Type) where
  test_list : List (test_case σ)
  before_func : Option (σ → σ)
  before_each_func : Option (σ → σ)
  after_func : Option (σ → σ)
  after_each_func : Option (σ → σ)

/-- The member `test_suite::add_test`. -/
def test_suite.add_test {σ : Type} (s : test_suite σ) (desc : String) (test : σ → Bool × σ) :
    test_suite σ :=
  { s with test_list := s.test_list ++ [⟨desc, test⟩] }

/-! ## Events -/

/-- One observable step of `dry_run`: a call of a hook or of a body, or one
write to standard output, named after the statement that performs it. -/
inductive Event (σ : Type) where
  /-- `tests.before_func()`, line 123. -/
  | before_all : Event σ
  /-- `tests.before_each_func()`, line 160. -/
  | before_each : Event σ
  /-- `it.test()`, line 162, for the case `c`, with the value it returned. -/
  | body (c : test_case σ) (result : Bool) : Event σ
  /-- `tests.after_each_func()`, line 177. -/
  | after_each : Event σ
  /-- `tests.after_func()`, line 184. -/
  | after_all : Event σ
  /-- A tick: `std::cout << "."` (line 165) or `std::cout << "F"` (line 171). -/
  | tick (pass : Bool) : Event σ
  /-- A write of one of the `COLOR_*` escape sequences. -/
  | color (code : String) : Event σ
  /-- The write of `print_help`, line 137. -/
  | help : Event σ
  /-- `std::cout << "\n\n"`, lines 180 and 202. -/
  | newlines : Event σ
  /-- `std::cout << "Failures: " << std::endl`, line 192. -/
  | failures_header : Event σ
  /-- `std::cout << it->desc << std::endl`, line 197. -/
  | failure_line (desc : String) : Event σ

/-- The text an event writes to standard output (empty for a call). -/
def Event.text {σ : Type} : Event σ → String
  | .tick true => "."
  | .tick false => "F"
  | .color code => code
  | .help => help_text
  | .newlines => "\n\n"
  | .failures_header => "Failures: \n"
  | .failure_line desc => desc ++ "\n"
  | _ => ""

/-- Standard output of a trace. -/
def stdout {σ : Type} (trace : List (Event σ)) : String :=
  String.join (trace.map Event.text)

/-! ## The option scan (lines 126-140) -/

/-- The predicate `isspace` of the C locale. -/
def isspace (c : Char) : Bool :=
  c = ' ' || c = '\t' || c = '\n' || c = '\x0b' || c = '\x0c' || c = '\r'

/-- The value of a run of decimal digits. -/
def digits_value (ds : List Char) : Nat :=
  ds.foldl (fun acc d => 10 * acc + (d.toNat - 48)) 0

/-- The library function `std::stoi(str)` (base 10): leading white space is
skipped, an optional sign is read, then the longest run of digits; what follows
is ignored.  `none` is a thrown exception: `std::invalid_argument` when there is
no digit, `std::out_of_range` when the value is not an `int`. -/
def stoi (s : String) : Option Int :=
  let cs := s.toList.dropWhile isspace
  let signed : Bool × List Char :=
    match cs with
    | '-' :: t => (true, t)
    | '+' :: t => (false, t)
    | _ => (false, cs)
  let ds := signed.2.takeWhile Char.isDigit
  if ds = [] then none
  else
    let v : Int := if signed.1 then - (digits_value ds : Int) else (digits_value ds : Int)
    if -2147483648 ≤ v ∧ v ≤ 2147483647 then some v else none

/-- The locals `determinate`, `colors`, `repeat` of `dry_run`. -/
structure options where
  determinate : Bool
  colors : Bool
  repeat_count : Int
  deriving DecidableEq

/-- How the scan of the argument vector ends. -/
inductive scan_result where
  /-- The loop ran to `i = argc`. -/
  | done (o : options) : scan_result
  /-- A `-h` or `--help` token was scanned: `print_help(); return;`. -/
  | help : scan_result
  /-- `std::stoi` threw on the token after `-r`. -/
  | stoi_threw : scan_result
  /-- `-r` was the last token: `argv[++i]` read position `i = argc`. -/
  | read_past_end (i : Nat) : scan_result
  deriving DecidableEq

/-- The loop of lines 130-140 from position `i` on: the first argument is the
list of the tokens `argv[i], ..., argv[argc-1]`. -/
def scan_from : List String → Nat → options → scan_result
  | [], _, o => .done o
  | a :: rest, i, o =>
    if a = "-d" then scan_from rest (i + 1) { o with determinate := true }
    else if a = "-r" then
      match rest with
      | [] => .read_past_end (i + 1)
      | n :: rest2 =>
        match stoi n with
        | none => .stoi_threw
        | some v => scan_from rest2 (i + 2) { o with repeat_count := v }
    else if a = "-c" then scan_from rest (i + 1) { o with colors := true }
    else if a = "-h" ∨ a = "--help" then .help
    else scan_from rest (i + 1) o

/-- A well-formed argument vector: every `-r` that the scan takes as a flag is
followed by a token that `std::stoi` converts. -/
def well_formed : List String → Bool
  | [] => true
  | a :: rest =>
    if a = "-r" then
      match rest with
      | [] => false
      | n :: rest2 => (stoi n).isSome && well_formed rest2
    else well_formed rest

/-- The option scan of `dry_run` on the whole argument vector. -/
def scan_options (argv : List String) : scan_result :=
  scan_from argv 0 ⟨false, false, 0⟩

/-! ## The engine (lines 117-203) -/

/-- How a call of `dry_run` ends. -/
inductive outcome where
  /-- The call returned. -/
  | returned : outcome
  /-- An exception of `std::stoi` left `dry_run` (the call does not return). -/
  | threw : outcome
  /-- The call read `argv[argc]`; what follows is not defined by the code. -/
  | out_of_bounds : outcome
  deriving DecidableEq

/-- What a call of `dry_run` leaves: the registry (passed by reference), the
state of the embedding program, and the events performed. -/
structure run_result (σ : Type) where
  outcome : outcome
  tests : test_suite σ
  state : σ
  trace : List (Event σ)

/-- The statement `if (f) f();` for a hook slot `f`, with the event `e`. -/
def call_hook {σ : Type} (f : Option (σ → σ)) (e : Event σ) (w : σ) : σ × List (Event σ) :=
  match f with
  | some g => (g w, [e])
  | none => (w, [])

/-- The statement `if (colors) std::cout << code;`. -/
def color_if {σ : Type} (colors : Bool) (code : String) : List (Event σ) :=
  if colors then [.color code] else []

/-- The vector `copied_tests` after `i` rounds of the loop of lines 146-147. -/
def copy_times {α : Type} (l : List α) : Nat → List α
  | 0 => []
  | i + 1 => copy_times l i ++ l

/-- Lines 142-150: the test list after the multiplication. -/
def multiply {α : Type} (repeat_count : Int) (l : List α) : List α :=
  if repeat_count > 0 then copy_times l repeat_count.toNat else l

/-- Lines 162-174: the writes for a body that returned `r`. -/
def tick_events {σ : Type} (colors r : Bool) : List (Event σ) :=
  if r then color_if colors COLOR_GREEN ++ [.tick true] ++ color_if colors COLOR_OFF
  else color_if colors COLOR_RED ++ [.tick false] ++ [.color COLOR_OFF]

/-- What the loop of lines 155-179 leaves. -/
structure loop_result (σ : Type) where
  failures : List (test_case σ)
  state : σ
  trace : List (Event σ)

/-- The loop of lines 155-179 over the remaining cases. -/
def run_cases {σ : Type} (colors : Bool) (before_each_func after_each_func : Option (σ → σ)) :
    List (test_case σ) → σ → loop_result σ
  | [], w => ⟨[], w, []⟩
  | it :: rest, w =>
    let b := call_hook before_each_func .before_each w
    let r := it.test b.1
    let a := call_hook after_each_func .after_each r.2
    let k := run_cases colors before_each_func after_each_func rest a.1
    ⟨(if r.1 then [] else [it]) ++ k.failures, k.state,
      b.2 ++ [.body it r.1] ++ tick_events colors r.1 ++ a.2 ++ k.trace⟩

/-- The call `std::sort(failures.begin(), failures.end())` with the `operator<`
of `test_case` (line 55), as an insertion sort.  The order `std::sort` gives to
cases with equal descriptions is not fixed; the code reads only the
descriptions of the sorted cases (line 197). -/
def std_sort {σ : Type} (l : List (test_case σ)) : List (test_case σ) :=
  l.insertionSort (fun a b => a.desc ≤ b.desc)

/-- The rest of `std::unique` after the kept element `last`. -/
def unique_after {σ : Type} (last : test_case σ) : List (test_case σ) → List (test_case σ)
  | [] => []
  | b :: rest =>
    if last.desc = b.desc then unique_after last rest else b :: unique_after b rest

/-- The range `[begin, uniq_end)` that `std::unique` leaves, with the
`operator==` of `test_case` (line 51): of each run of equal elements the first. -/
def std_unique {σ : Type} : List (test_case σ) → List (test_case σ)
  | [] => []
  | a :: rest => a :: unique_after a rest

/-- The loop of lines 194-199 over the range that `std::unique` left. -/
def failure_rows {σ : Type} (colors : Bool) (l : List (test_case σ)) : List (Event σ) :=
  l.flatMap fun it =>
    color_if colors COLOR_RED ++ [.failure_line it.desc] ++ color_if colors COLOR_OFF

/-- Lines 187-200: the failure summary. -/
def failure_summary {σ : Type} (colors : Bool) (failures : List (test_case σ)) :
    List (Event σ) :=
  if failures.isEmpty then []
  else
    color_if colors COLOR_MAGENTA ++ [.failures_header] ++ color_if colors COLOR_OFF ++
      failure_rows colors (std_unique (std_sort failures))

/-- Lines 142-153: the list the loop runs over, and that is left in the
registry. -/
def schedule {σ : Type} (shuffle : List (test_case σ) → List (test_case σ)) (o : options)
    (l : List (test_case σ)) : List (test_case σ) :=
  if o.determinate then multiply o.repeat_count l else shuffle (multiply o.repeat_count l)

/-- The function `dry_run` (lines 117-203). -/
def dry_run {σ : Type} (shuffle : List (test_case σ) → List (test_case σ))
    (argv : List String) (tests : test_suite σ) (w : σ) : run_result σ :=
  if tests.test_list.isEmpty then ⟨.returned, tests, w, []⟩
  else
    let b := call_hook tests.before_func .before_all w
    match scan_options argv with
    | .help => ⟨.returned, tests, b.1, b.2 ++ [.help]⟩
    | .stoi_threw => ⟨.threw, tests, b.1, b.2⟩
    | .read_past_end _ => ⟨.out_of_bounds, tests, b.1, b.2⟩
    | .done o =>
      let list := schedule shuffle o tests.test_list
      let k := run_cases o.colors tests.before_each_func tests.after_each_func list b.1
      let a := call_hook tests.after_func .after_all k.state
      ⟨.returned, { tests with test_list := list }, a.1,
        b.2 ++ k.trace ++ [.newlines] ++ a.2 ++ failure_summary o.colors k.failures ++
          [.newlines]⟩

/-! ## Observations on a trace -/

/-- The ticks of a trace, in order (`true` is a pass tick). -/
def ticks {σ : Type} (trace : List (Event σ)) : List Bool :=
  trace.filterMap fun e => match e with
    | .tick p => some p
    | _ => none

/-- The body invocations of a trace, in order, with the values returned. -/
def invocations {σ : Type} (trace : List (Event σ)) : List (test_case σ × Bool) :=
  trace.filterMap fun e => match e with
    | .body c r => some (c, r)
    | _ => none

/-- The descriptions written in the failure summary, in order. -/
def failure_lines {σ : Type} (trace : List (Event σ)) : List String :=
  trace.filterMap fun e => match e with
    | .failure_line d => some d
    | _ => none

/-- The statement an event comes from, without its data. -/
inductive Kind where
  | before_all | before_each | body | after_each | after_all
  | tick | color | help | newlines | failures_header | failure_line
  deriving DecidableEq

/-- The kind of an event. -/
def Event.kind {σ : Type} : Event σ → Kind
  | .before_all => .before_all
  | .before_each => .before_each
  | .body _ _ => .body
  | .after_each => .after_each
  | .after_all => .after_all
  | .tick _ => .tick
  | .color _ => .color
  | .help => .help
  | .newlines => .newlines
  | .failures_header => .failures_header
  | .failure_line _ => .failure_line

/-- The kinds of the events of a trace, in order. -/
def kinds {σ : Type} (trace : List (Event σ)) : List Kind :=
  trace.map Event.kind

/-- The calls made once per scheduled case: before-each, the body, after-each. -/
def Kind.per_case : Kind → Bool
  | .before_each => true
  | .body => true
  | .after_each => true
  | _ => false

/-- The order of the calls around the loop, for an earlier kind `k1` and a
later kind `k2` of a trace: a before-all call is not the later one of a call
made per case, and an after-all call is not the earlier one. -/
def around_order (k1 k2 : Kind) : Prop :=
  ¬ (k1.per_case = true ∧ k2 = .before_all) ∧ ¬ (k1 = .after_all ∧ k2.per_case = true)

/-! ## Concrete registries -/

/-- A body that returns `r` and leaves the state alone. -/
def const_body (r : Bool) : Unit → Bool × Unit := fun w => (r, w)

/-- A registry without hooks. -/
def plain_suite (l : List (test_case Unit)) : test_suite Unit :=
  ⟨l, none, none, none, none⟩

/-- Scenario S2 of the specification: `a` passes, `b` fails, `c` passes. -/
def suite_S2 : test_suite Unit :=
  plain_suite [⟨"a", const_body true⟩, ⟨"b", const_body false⟩, ⟨"c", const_body true⟩]

/-! ## The text of a trace -/

/-- The characters a trace writes to standard output, in order. -/
def chars {σ : Type} (trace : List (Event σ)) : List Char :=
  trace.flatMap fun e => e.text.toList

/-! ## The benchmark engine (lines 92-114 and 205-243) -/

/-- The struct `bench_case`: a description, a body and a repetition count. -/
structure bench_case (σ : Type) where
  desc : String
  test : σ → σ
  reps : Int

/-- The struct `bench_suite`: the list of benchmark cases. -/
structure bench_suite (σ : Type) where
  bench_list : List (bench_case σ)

/-- The member `bench_suite::add_benchmark`. -/
def bench_suite.add_benchmark {σ : Type} (s : bench_suite σ) (desc : String) (reps : Int)
    (test : σ → σ) : bench_suite σ :=
  ⟨s.bench_list ++ [⟨desc, test, reps⟩]⟩

/-- One observable step of `dry_run_benchmarks`: a call of a body or one write
to standard output, named after the statement that performs it. -/
inductive BenchEvent (σ : Type) where
  /-- `i.test()`, line 231, for the case `c`. -/
  | body (c : bench_case σ) : BenchEvent σ
  /-- A write of one of the `COLOR_*` escape sequences. -/
  | color (code : String) : BenchEvent σ
  /-- The write of `print_help`, line 213. -/
  | help : BenchEvent σ
  /-- `std::cout << "Benchmarks:" << std::endl`, line 221. -/
  | header : BenchEvent σ
  /-- `std::cout << "TIME\t\t\tREPETITIONS\tDESCRIPTION\n\n"`, line 223. -/
  | columns : BenchEvent σ
  /-- `std::cout << elapsed_seconds.count() << "s"`, line 237; `seconds` is the
  text of the measured number. -/
  | time (seconds : String) : BenchEvent σ
  /-- `std::cout << "\t\t" << i.reps << "\t\t" << i.desc << std::endl`, line 239. -/
  | row (reps : Int) (desc : String) : BenchEvent σ
  /-- `std::cout << "\n\n"`, line 242. -/
  | newlines : BenchEvent σ

/-- The text a benchmark event writes to standard output (empty for a call). -/
def BenchEvent.text {σ : Type} : BenchEvent σ → String
  | .body _ => ""
  | .color code => code
  | .help => help_text
  | .header => "Benchmarks:\n"
  | .columns => "TIME\t\t\tREPETITIONS\tDESCRIPTION\n\n"
  | .time seconds => seconds ++ "s"
  | .row reps desc => "\t\t" ++ toString reps ++ "\t\t" ++ desc ++ "\n"
  | .newlines => "\n\n"

/-- Standard output of a benchmark trace. -/
def bench_stdout {σ : Type} (trace : List (BenchEvent σ)) : String :=
  String.join (trace.map BenchEvent.text)

/-- How the scan of `dry_run_benchmarks` ends. -/
inductive bench_scan_result where
  /-- The loop ran to `i = argc`, with this value of `colors`. -/
  | done (colors : Bool) : bench_scan_result
  /-- A `-h` or `--help` token was scanned: `print_help(); return;`. -/
  | help : bench_scan_result
  deriving DecidableEq

/-- The loop of lines 208-216 over the remaining tokens. -/
def bench_scan_from : List String → Bool → bench_scan_result
  | [], colors => .done colors
  | a :: rest, colors =>
    if a = "-c" then bench_scan_from rest true
    else if a = "-h" ∨ a = "--help" then .help
    else bench_scan_from rest colors

/-- The option scan of `dry_run_benchmarks` (lines 207-216). -/
def bench_scan (argv : List String) : bench_scan_result :=
  bench_scan_from argv false

/-- The statement `if (colors) std::cout << code;` of the benchmark engine. -/
def bench_color_if {σ : Type} (colors : Bool) (code : String) : List (BenchEvent σ) :=
  if colors then [.color code] else []

/-- The loop of lines 230-231 with `count` rounds to go. -/
def run_reps {σ : Type} (c : bench_case σ) : Nat → σ → σ × List (BenchEvent σ)
  | 0, w => (w, [])
  | count + 1, w =>
    let r := run_reps c count (c.test w)
    (r.1, .body c :: r.2)

/-- Lines 236-239: the row of the case `c`, with the text of the elapsed time. -/
def bench_row {σ : Type} (colors : Bool) (seconds : String) (c : bench_case σ) :
    List (BenchEvent σ) :=
  bench_color_if colors COLOR_GREEN ++ [.time seconds] ++ bench_color_if colors COLOR_OFF ++
    [.row c.reps c.desc]

/-- The loop of lines 225-240 over the remaining cases; `k` is the number of
cases done, and `clock k` the text of the time measured for the next one. -/
def run_benchmarks {σ : Type} (colors : Bool) (clock : Nat → String) :
    List (bench_case σ) → Nat → σ → σ × List (BenchEvent σ)
  | [], _, w => (w, [])
  | i :: rest, k, w =>
    let r := run_reps i i.reps.toNat w
    let t := run_benchmarks colors clock rest (k + 1) r.1
    (t.1, r.2 ++ bench_row colors (clock k) i ++ t.2)

/-- Lines 220-223: the header of the table. -/
def bench_header {σ : Type} (colors : Bool) : List (BenchEvent σ) :=
  bench_color_if colors COLOR_MAGENTA ++ [.header] ++ bench_color_if colors COLOR_OFF ++
    [.columns]

/-- What a call of `dry_run_benchmarks` leaves: the state of the embedding
program and the events performed. -/
structure bench_result (σ : Type) where
  state : σ
  trace : List (BenchEvent σ)

/-- The function `dry_run_benchmarks` (lines 205-243).  The measured times are
the parameter `clock`. -/
def dry_run_benchmarks {σ : Type} (clock : Nat → String) (argv : List String)
    (benchmarks : bench_suite σ) (w : σ) : bench_result σ :=
  match bench_scan argv with
  | .help => ⟨w, [.help]⟩
  | .done colors =>
    if benchmarks.bench_list.isEmpty then ⟨w, []⟩
    else
      let r := run_benchmarks colors clock benchmarks.bench_list 0 w
      ⟨r.1, bench_header colors ++ r.2 ++ [.newlines]⟩

/-- The body invocations of a benchmark trace, in order. -/
def bench_invocations {σ : Type} (trace : List (BenchEvent σ)) : List (bench_case σ) :=
  trace.filterMap fun e => match e with
    | .body c => some c
    | _ => none

/-- The rows of a benchmark trace, in order: repetition count and description. -/
def bench_rows {σ : Type} (trace : List (BenchEvent σ)) : List (Int × String) :=
  trace.filterMap fun e => match e with
    | .row reps desc => some (reps, desc)
    | _ => none

/-- Scenario S6 of the specification: one benchmark `noop` with 1000
repetitions and an empty body. -/
def suite_S6 : bench_suite Unit := ⟨[⟨"noop", fun w => w, 1000⟩]⟩

/-! ## The options in the words of the specification -/

/-- The repeat value as the specification words it: the integer value of the
token that follows the last `-r` token, and 0 when there is no `-r` token. -/
def spec_repeat : List String → Int
  | [] => 0
  | a :: rest =>
    if "-r" ∈ rest then spec_repeat rest
    else if a = "-r" then (rest.head?.bind stoi).getD 0
    else 0

/-- The options as the specification words them: determinate when some token
is `-d`, colours when some token is `-c`, and the repeat value `spec_repeat`. -/
def spec_options (argv : List String) : options :=
  ⟨decide ("-d" ∈ argv), decide ("-c" ∈ argv), spec_repeat argv⟩

/-! ## The calls of a trace -/

/-- The kinds of the calls: the four hooks and the bodies. -/
def Kind.is_call : Kind → Bool
  | .before_all => true
  | .before_each => true
  | .body => true
  | .after_each => true
  | .after_all => true
  | _ => false

/-- The calls of a trace, in order, without the writes. -/
def calls {σ : Type} (trace : List (Event σ)) : List (Event σ) :=
  trace.filter fun e => e.kind.is_call

/-! ## Consecutive calls -/

/-- Consecutive calls of `dry_run` on one registry with the same arguments, each
on the registry and the state the call before left: the result of call number
`k + 1`, where `shuffle j` is the shuffle of call number `j + 1`. -/
def dry_run_nth {σ : Type} (shuffle : Nat → List (test_case σ) → List (test_case σ))
    (argv : List String) : Nat → test_suite σ → σ → run_result σ
  | 0, tests, w => dry_run (shuffle 0) argv tests w
  | k + 1, tests, w =>
    let r := dry_run (shuffle 0) argv tests w
    dry_run_nth (fun j => shuffle (j + 1)) argv k r.tests r.state

/-! ## Escape sequences in a text -/

/-- The character ESC, the byte 0x1B. -/
def esc : Char := Char.ofNat 0x1B

/-- The four SGR sequences `ESC[0m`, `ESC[31m`, `ESC[32m`, `ESC[35m`. -/
def sgr_sequences : List String := [COLOR_OFF, COLOR_RED, COLOR_GREEN, COLOR_MAGENTA]

/-- The SGR sequence a text starts with, if it starts with one of the four. -/
def sgr_at (s : List Char) : Option String :=
  sgr_sequences.find? fun code => code.toList.isPrefixOf s

/-- A piece of a text: an occurrence of one of the four SGR sequences, or a
character outside such an occurrence. -/
inductive Token where
  | sgr (code : String) : Token
  | char (c : Char) : Token
  deriving DecidableEq

/-- The pieces of a text, read from left to right; `skip` is the number of
characters of the current SGR sequence that are still to pass. -/
def tokens_skip : Nat → List Char → List Token
  | _, [] => []
  | skip + 1, _ :: rest => tokens_skip skip rest
  | 0, c :: rest =>
    match sgr_at (c :: rest) with
    | some code => .sgr code :: tokens_skip (code.length - 1) rest
    | none => .char c :: tokens_skip 0 rest

/-- The pieces of a text. -/
def tokens (s : String) : List Token :=
  tokens_skip 0 s.toList

/-- The text with all occurrences of the four SGR sequences removed. -/
def strip_sgr (s : String) : String :=
  String.mk ((tokens s).filterMap fun t => match t with
    | .char c => some c
    | .sgr _ => none)

/-- The occurrences of the four SGR sequences in a text, in order. -/
def sgr_of (s : String) : List String :=
  (tokens s).filterMap fun t => match t with
    | .sgr code => some code
    | .char _ => none

/-- Every colour-setting sequence of the list (one that is not the reset
`COLOR_OFF`) is directly followed by a reset. -/
def reset_after_each : List String → Prop
  | [] => True
  | c :: rest => (c = COLOR_OFF ∨ rest.head? = some COLOR_OFF) ∧ reset_after_each rest

/-- The pieces an event writes. -/
def Event.tokens {σ : Type} : Event σ → List Token
  | .color code => [.sgr code]
  | e => e.text.toList.map Token.char

/-- The events of a trace that are not colour writes. -/
def plain {σ : Type} (trace : List (Event σ)) : List (Event σ) :=
  trace.filter fun e => e.kind != .color

/-- The escape sequences the colour writes of a trace write, in order. -/
def color_codes {σ : Type} (trace : List (Event σ)) : List String :=
  trace.filterMap fun e => match e with
    | .color code => some code
    | _ => none

/-- An event whose text splits into the pieces `Event.tokens`: a colour write
of one of the four SGR sequences, or a write without the character ESC. -/
def Event.clean {σ : Type} (e : Event σ) : Prop :=
  match e with
  | .color code => code ∈ sgr_sequences
  | e => esc ∉ e.text.toList

/-! ## Lemmas on the option scan -/

theorem stoi_help_tokens : stoi "-h" = none ∧ stoi "--help" = none := by decide

/-- One round of the scan loop. -/
theorem scan_from_cons (a : String) (rest : List String) (i : Nat) (o : options) :
    scan_from (a :: rest) i o =
      if a = "-d" then scan_from rest (i + 1) { o with determinate := true }
      else if a = "-r" then
        match rest with
        | [] => .read_past_end (i + 1)
        | n :: rest2 =>
          match stoi n with
          | none => .stoi_threw
          | some v => scan_from rest2 (i + 2) { o with repeat_count := v }
      else if a = "-c" then scan_from rest (i + 1) { o with colors := true }
      else if a = "-h" ∨ a = "--help" then .help
      else scan_from rest (i + 1) o := by
  rw [scan_from.eq_def]

/-- A scan of an argument vector with a help token never completes: it ends in
help, or before that in a throw of `std::stoi`. -/
theorem scan_from_help (argv : List String) (i : Nat) (o : options)
    (h : "-h" ∈ argv ∨ "--help" ∈ argv) :
    scan_from argv i o = .help ∨ scan_from argv i o = .stoi_threw := by
  induction argv, i, o using scan_from.induct with
  | case1 i o => simp at h
  | case2 rest i o ih =>
    have h2 : "-h" ∈ rest ∨ "--help" ∈ rest := by simpa using h
    simpa [scan_from_cons] using ih h2
  | case3 i o _ => simp at h
  | case4 i o n rest2 hn _ =>
    right
    simp [scan_from_cons, hn]
  | case5 i o n rest2 v hv _ ih =>
    have h2 : "-h" ∈ rest2 ∨ "--help" ∈ rest2 := by
      simp only [List.mem_cons] at h
      rcases h with (h | h | h) | (h | h | h)
      · simp at h
      · rw [← h, stoi_help_tokens.1] at hv; cases hv
      · exact Or.inl h
      · simp at h
      · rw [← h, stoi_help_tokens.2] at hv; cases hv
      · exact Or.inr h
    simpa [scan_from_cons, hv] using ih h2
  | case6 rest i o _ _ ih =>
    have h2 : "-h" ∈ rest ∨ "--help" ∈ rest := by simpa using h
    simpa [scan_from_cons] using ih h2
  | case7 a rest i o h1 h2 h3 h4 =>
    left
    simp [scan_from_cons, h1, h2, h3, h4]
  | case8 a rest i o h1 h2 h3 h4 ih =>
    have h5 : "-h" ∈ rest ∨ "--help" ∈ rest := by
      simp only [List.mem_cons] at h
      rcases h with (h | h) | (h | h)
      · exact absurd (Or.inl h.symm) h4
      · exact Or.inl h
      · exact absurd (Or.inr h.symm) h4
      · exact Or.inr h
    simpa [scan_from_cons, h1, h2, h3, h4] using ih h5

theorem well_formed_cons (a : String) (rest : List String) :
    well_formed (a :: rest) =
      if a = "-r" then
        match rest with
        | [] => false
        | n :: rest2 => (stoi n).isSome && well_formed rest2
      else well_formed rest := by
  rw [well_formed.eq_def]

/-- The scan completes exactly on the well-formed argument vectors without a
help token. -/
theorem scan_from_done_iff (argv : List String) (i : Nat) (o : options) :
    (∃ o2, scan_from argv i o = .done o2) ↔
      well_formed argv = true ∧ "-h" ∉ argv ∧ "--help" ∉ argv := by
  induction argv, i, o using scan_from.induct with
  | case1 i o => simp [scan_from, well_formed]
  | case2 rest i o ih => simpa [scan_from_cons, well_formed_cons] using ih
  | case3 i o _ => simp [scan_from_cons, well_formed_cons]
  | case4 i o n rest2 hn _ => simp [scan_from_cons, well_formed_cons, hn]
  | case5 i o n rest2 v hv _ ih =>
    have h1 : ¬ "-h" = n := fun h => by rw [← h, stoi_help_tokens.1] at hv; cases hv
    have h2 : ¬ "--help" = n := fun h => by rw [← h, stoi_help_tokens.2] at hv; cases hv
    simpa [scan_from_cons, well_formed_cons, hv, h1, h2] using ih
  | case6 rest i o _ _ ih => simpa [scan_from_cons, well_formed_cons] using ih
  | case7 a rest i o h1 h2 h3 h4 =>
    simp only [scan_from_cons, h1, h2, h3, h4, if_false, if_true, reduceCtorEq, exists_false,
      false_iff, not_and]
    intro _ h5 h6
    rcases h4 with h | h
    · exact h5 (h ▸ List.mem_cons_self _ _)
    · exact h6 (h ▸ List.mem_cons_self _ _)
  | case8 a rest i o h1 h2 h3 h4 ih =>
    have h5 : ¬ "-h" = a := fun h => h4 (Or.inl h.symm)
    have h6 : ¬ "--help" = a := fun h => h4 (Or.inr h.symm)
    simpa [scan_from_cons, well_formed_cons, h1, h2, h3, h4, h5, h6] using ih

/-- The scan of `dry_run` completes exactly on the well-formed argument vectors
without a help token. -/
theorem scan_options_done_iff (argv : List String) :
    (∃ o, scan_options argv = .done o) ↔
      well_formed argv = true ∧ "-h" ∉ argv ∧ "--help" ∉ argv :=
  scan_from_done_iff argv 0 ⟨false, false, 0⟩

/-! ## Lemmas on observations -/

section observations
variable {σ : Type}

@[simp] theorem ticks_nil : ticks ([] : List (Event σ)) = [] := rfl

@[simp] theorem ticks_append (s t : List (Event σ)) : ticks (s ++ t) = ticks s ++ ticks t := by
  simp [ticks, List.filterMap_append]

@[simp] theorem invocations_nil : invocations ([] : List (Event σ)) = [] := rfl

@[simp] theorem invocations_append (s t : List (Event σ)) :
    invocations (s ++ t) = invocations s ++ invocations t := by
  simp [invocations, List.filterMap_append]

@[simp] theorem failure_lines_nil : failure_lines ([] : List (Event σ)) = [] := rfl

@[simp] theorem failure_lines_append (s t : List (Event σ)) :
    failure_lines (s ++ t) = failure_lines s ++ failure_lines t := by
  simp [failure_lines, List.filterMap_append]

@[simp] theorem kinds_nil : kinds ([] : List (Event σ)) = [] := rfl

@[simp] theorem kinds_append (s t : List (Event σ)) : kinds (s ++ t) = kinds s ++ kinds t := by
  simp [kinds]

@[simp] theorem kinds_cons (e : Event σ) (t : List (Event σ)) :
    kinds (e :: t) = e.kind :: kinds t := rfl

@[simp] theorem invocations_cons_body (c : test_case σ) (r : Bool) (t : List (Event σ)) :
    invocations (.body c r :: t) = (c, r) :: invocations t := rfl

@[simp] theorem ticks_cons_body (c : test_case σ) (r : Bool) (t : List (Event σ)) :
    ticks (.body c r :: t) = ticks t := rfl

@[simp] theorem failure_lines_cons_body (c : test_case σ) (r : Bool) (t : List (Event σ)) :
    failure_lines (.body c r :: t) = failure_lines t := rfl

@[simp] theorem invocations_cons_newlines (t : List (Event σ)) :
    invocations (.newlines :: t) = invocations t := rfl

@[simp] theorem ticks_cons_newlines (t : List (Event σ)) :
    ticks (.newlines :: t) = ticks t := rfl

@[simp] theorem failure_lines_cons_newlines (t : List (Event σ)) :
    failure_lines (.newlines :: t) = failure_lines t := rfl

theorem kinds_color_if (colors : Bool) (code : String) :
    ∀ k ∈ kinds (color_if colors code : List (Event σ)), k = .color := by
  cases colors <;> simp [color_if, Event.kind]

theorem kinds_call_hook (f : Option (σ → σ)) (e : Event σ) (w : σ) :
    kinds (call_hook f e w).2 = if f.isSome then [e.kind] else [] := by
  cases f <;> simp [call_hook]

theorem ticks_call_hook (f : Option (σ → σ)) (e : Event σ) (w : σ) (he : e.kind ≠ .tick) :
    ticks (call_hook f e w).2 = [] := by
  cases f with
  | none => simp [call_hook]
  | some g => cases e <;> simp_all [call_hook, ticks, Event.kind]

theorem invocations_call_hook (f : Option (σ → σ)) (e : Event σ) (w : σ)
    (he : e.kind ≠ .body) : invocations (call_hook f e w).2 = [] := by
  cases f with
  | none => simp [call_hook]
  | some g => cases e <;> simp_all [call_hook, invocations, Event.kind]

theorem failure_lines_call_hook (f : Option (σ → σ)) (e : Event σ) (w : σ)
    (he : e.kind ≠ .failure_line) : failure_lines (call_hook f e w).2 = [] := by
  cases f with
  | none => simp [call_hook]
  | some g => cases e <;> simp_all [call_hook, failure_lines, Event.kind]

theorem ticks_tick_events (colors r : Bool) : ticks (tick_events colors r : List (Event σ)) = [r] := by
  cases colors <;> cases r <;> simp [tick_events, color_if, ticks]

theorem invocations_tick_events (colors r : Bool) :
    invocations (tick_events colors r : List (Event σ)) = [] := by
  cases colors <;> cases r <;> simp [tick_events, color_if, invocations]

theorem failure_lines_tick_events (colors r : Bool) :
    failure_lines (tick_events colors r : List (Event σ)) = [] := by
  cases colors <;> cases r <;> simp [tick_events, color_if, failure_lines]

end observations

/-! ## Lemmas on the loop over the cases -/

section loop
variable {σ : Type}

theorem run_cases_invocations (colors : Bool) (be ae : Option (σ → σ))
    (l : List (test_case σ)) (w : σ) :
    (invocations (run_cases colors be ae l w).trace).map Prod.fst = l := by
  induction l generalizing w with
  | nil => simp [run_cases]
  | cons it rest ih =>
    simp [run_cases, invocations_call_hook, invocations_tick_events, Event.kind, ih]

theorem run_cases_ticks (colors : Bool) (be ae : Option (σ → σ))
    (l : List (test_case σ)) (w : σ) :
    ticks (run_cases colors be ae l w).trace =
      (invocations (run_cases colors be ae l w).trace).map Prod.snd := by
  induction l generalizing w with
  | nil => simp [run_cases]
  | cons it rest ih =>
    simp [run_cases, invocations_call_hook, invocations_tick_events, ticks_call_hook,
      ticks_tick_events, Event.kind, ih]

theorem run_cases_failures (colors : Bool) (be ae : Option (σ → σ))
    (l : List (test_case σ)) (w : σ) :
    (run_cases colors be ae l w).failures =
      ((invocations (run_cases colors be ae l w).trace).filter fun p => !p.2).map Prod.fst := by
  induction l generalizing w with
  | nil => simp [run_cases]
  | cons it rest ih =>
    simp only [run_cases, invocations_append, invocations_call_hook, invocations_tick_events,
      Event.kind, ih, ne_eq, not_false_eq_true, reduceCtorEq, List.nil_append, List.append_nil,
      List.filter_append, List.map_append]
    cases h : (it.test (call_hook be Event.before_each w).1).1 <;> simp [invocations, h]

theorem run_cases_failure_lines (colors : Bool) (be ae : Option (σ → σ))
    (l : List (test_case σ)) (w : σ) :
    failure_lines (run_cases colors be ae l w).trace = [] := by
  induction l generalizing w with
  | nil => simp [run_cases]
  | cons it rest ih =>
    simp [run_cases, failure_lines_call_hook, failure_lines_tick_events, Event.kind, ih]

theorem kinds_tick_events (colors r : Bool) :
    ∀ k ∈ kinds (tick_events colors r : List (Event σ)), k = .tick ∨ k = .color := by
  cases colors <;> cases r <;> simp [tick_events, color_if, Event.kind]

/-- The loop performs only calls of before-each, bodies and after-each, ticks
and colour writes. -/
theorem run_cases_kinds (colors : Bool) (be ae : Option (σ → σ))
    (l : List (test_case σ)) (w : σ) :
    ∀ k ∈ kinds (run_cases colors be ae l w).trace,
      k = .before_each ∨ k = .body ∨ k = .tick ∨ k = .color ∨ k = .after_each := by
  induction l generalizing w with
  | nil => simp [run_cases]
  | cons it rest ih =>
    intro k hk
    simp only [run_cases, kinds_append, kinds_cons, kinds_nil, kinds_call_hook,
      List.mem_append, List.mem_singleton, Event.kind] at hk
    rcases hk with (((hk | hk) | hk) | hk) | hk
    · split at hk <;> simp_all [Event.kind]
    · simp [hk]
    · rcases kinds_tick_events _ _ k hk with h | h <;> simp [h]
    · split at hk <;> simp_all [Event.kind]
    · exact ih _ k hk

theorem count_kinds_tick_events (colors r : Bool) (k : Kind) (h1 : k ≠ .tick)
    (h2 : k ≠ .color) : (kinds (tick_events colors r : List (Event σ))).count k = 0 := by
  rw [List.count_eq_zero]
  intro hk
  rcases kinds_tick_events colors r k hk with h | h <;> contradiction

theorem run_cases_count_before_each (colors : Bool) (be ae : Option (σ → σ))
    (l : List (test_case σ)) (w : σ) :
    (kinds (run_cases colors be ae l w).trace).count .before_each =
      if be.isSome then l.length else 0 := by
  induction l generalizing w with
  | nil => simp [run_cases]
  | cons it rest ih =>
    simp only [run_cases, kinds_append, kinds_cons, kinds_nil, kinds_call_hook,
      List.count_append, ih, Event.kind]
    rw [count_kinds_tick_events _ _ _ (by decide) (by decide)]
    cases be <;> cases ae <;> simp <;> omega

theorem run_cases_count_after_each (colors : Bool) (be ae : Option (σ → σ))
    (l : List (test_case σ)) (w : σ) :
    (kinds (run_cases colors be ae l w).trace).count .after_each =
      if ae.isSome then l.length else 0 := by
  induction l generalizing w with
  | nil => simp [run_cases]
  | cons it rest ih =>
    simp only [run_cases, kinds_append, kinds_cons, kinds_nil, kinds_call_hook,
      List.count_append, ih, Event.kind]
    rw [count_kinds_tick_events _ _ _ (by decide) (by decide)]
    cases be <;> cases ae <;> simp <;> omega

end loop

/-! ## Lemmas on the multiplication of the list -/

section multiplication
variable {α : Type}

theorem copy_times_eq_flatten (l : List α) (i : Nat) :
    copy_times l i = (List.replicate i l).flatten := by
  induction i with
  | zero => rfl
  | succ i ih =>
    rw [copy_times, ih, List.replicate_succ', List.flatten_append]
    simp

theorem multiply_eq_flatten (n : Int) (l : List α) :
    multiply n l = (List.replicate (max n 1).toNat l).flatten := by
  unfold multiply
  split
  · rw [copy_times_eq_flatten, max_eq_left (by omega)]
  · rw [max_eq_right (by omega)]
    simp

theorem length_replicate_flatten (m : Nat) (l : List α) :
    (List.replicate m l).flatten.length = m * l.length := by
  induction m with
  | zero => simp
  | succ m ih => rw [List.replicate_succ, List.flatten_cons, List.length_append, ih]; ring

theorem getElem?_replicate_flatten (m : Nat) (l : List α) (i : Nat) (h : i < m * l.length) :
    (List.replicate m l).flatten[i]? = l[i % l.length]? := by
  induction m generalizing i with
  | zero => simp at h
  | succ m ih =>
    rw [List.replicate_succ, List.flatten_cons]
    by_cases hi : i < l.length
    · rw [List.getElem?_append_left hi, Nat.mod_eq_of_lt hi]
    · have hle : l.length ≤ i := Nat.le_of_not_lt hi
      rw [List.getElem?_append_right hle, ih (i - l.length) (by
        rw [Nat.succ_mul] at h; omega)]
      congr 1
      conv_rhs => rw [← Nat.sub_add_cancel hle]
      rw [Nat.add_mod_right]

end multiplication

/-! ## Lemmas on `dry_run` -/

section engine
variable {σ : Type}

theorem schedule_perm (shuffle : List (test_case σ) → List (test_case σ))
    (hperm : ∀ l, (shuffle l).Perm l) (o : options) (l : List (test_case σ)) :
    (schedule shuffle o l).Perm (List.replicate (max o.repeat_count 1).toNat l).flatten := by
  unfold schedule
  split
  · rw [multiply_eq_flatten]
  · rw [← multiply_eq_flatten]; exact hperm _

theorem dry_run_empty (shuffle : List (test_case σ) → List (test_case σ)) (argv : List String)
    (tests : test_suite σ) (w : σ) (h : tests.test_list = []) :
    dry_run shuffle argv tests w = ⟨.returned, tests, w, []⟩ := by
  simp [dry_run, h]

/-- The trace of a call on a non-empty list starts with the before-all hook. -/
theorem dry_run_done (shuffle : List (test_case σ) → List (test_case σ)) (argv : List String)
    (tests : test_suite σ) (w : σ) (o : options) (hne : tests.test_list ≠ [])
    (hscan : scan_options argv = .done o) :
    dry_run shuffle argv tests w =
      let b := call_hook tests.before_func .before_all w
      let list := schedule shuffle o tests.test_list
      let k := run_cases o.colors tests.before_each_func tests.after_each_func list b.1
      let a := call_hook tests.after_func .after_all k.state
      ⟨.returned, { tests with test_list := list }, a.1,
        b.2 ++ k.trace ++ [.newlines] ++ a.2 ++ failure_summary o.colors k.failures ++
          [.newlines]⟩ := by
  simp [dry_run, hne, hscan]

theorem kinds_failure_rows (colors : Bool) (l : List (test_case σ)) :
    ∀ k ∈ kinds (failure_rows colors l), k = .color ∨ k = .failure_line := by
  induction l with
  | nil => simp [failure_rows]
  | cons c l ih =>
    intro k hk
    rw [failure_rows, List.flatMap_cons, kinds_append] at hk
    rcases List.mem_append.mp hk with h | h
    · cases colors <;> simp [color_if, Event.kind] at h <;> tauto
    · exact ih k h

theorem kinds_failure_summary (colors : Bool) (l : List (test_case σ)) :
    ∀ k ∈ kinds (failure_summary colors l),
      k = .color ∨ k = .failures_header ∨ k = .failure_line := by
  unfold failure_summary
  split
  · simp
  · intro k hk
    simp only [kinds_append, List.mem_append] at hk
    rcases hk with hk | hk
    · cases colors <;> simp [color_if, Event.kind] at hk <;> tauto
    · rcases kinds_failure_rows colors _ k hk with h | h <;> simp [h]

theorem ticks_eq_nil_of_kinds (t : List (Event σ)) (h : Kind.tick ∉ kinds t) : ticks t = [] := by
  induction t with
  | nil => rfl
  | cons e t ih =>
    simp only [kinds_cons, List.mem_cons, not_or] at h
    cases e <;> simp_all [ticks, Event.kind]

theorem invocations_eq_nil_of_kinds (t : List (Event σ)) (h : Kind.body ∉ kinds t) :
    invocations t = [] := by
  induction t with
  | nil => rfl
  | cons e t ih =>
    simp only [kinds_cons, List.mem_cons, not_or] at h
    cases e <;> simp_all [invocations, Event.kind]

theorem failure_lines_eq_nil_of_kinds (t : List (Event σ)) (h : Kind.failure_line ∉ kinds t) :
    failure_lines t = [] := by
  induction t with
  | nil => rfl
  | cons e t ih =>
    simp only [kinds_cons, List.mem_cons, not_or] at h
    cases e <;> simp_all [failure_lines, Event.kind]

theorem ticks_failure_summary (colors : Bool) (l : List (test_case σ)) :
    ticks (failure_summary colors l) = [] := by
  apply ticks_eq_nil_of_kinds
  intro h
  rcases kinds_failure_summary colors l _ h with h | h | h <;> cases h

theorem invocations_failure_summary (colors : Bool) (l : List (test_case σ)) :
    invocations (failure_summary colors l) = [] := by
  apply invocations_eq_nil_of_kinds
  intro h
  rcases kinds_failure_summary colors l _ h with h | h | h <;> cases h

/-- The ticks of a completed run are the return values of the body
invocations, and the cases invoked are the scheduled list. -/
theorem dry_run_done_observations (shuffle : List (test_case σ) → List (test_case σ))
    (argv : List String) (tests : test_suite σ) (w : σ) (o : options)
    (hne : tests.test_list ≠ []) (hscan : scan_options argv = .done o) :
    (invocations (dry_run shuffle argv tests w).trace).map Prod.fst =
        schedule shuffle o tests.test_list ∧
      ticks (dry_run shuffle argv tests w).trace =
        (invocations (dry_run shuffle argv tests w).trace).map Prod.snd := by
  rw [dry_run_done shuffle argv tests w o hne hscan]
  simp only [ticks_append, invocations_append, ticks_failure_summary,
    invocations_failure_summary, ticks_call_hook, invocations_call_hook, Event.kind, ne_eq,
    not_false_eq_true, reduceCtorEq, List.nil_append, List.append_nil, List.map_append]
  refine ⟨?_, ?_⟩
  · simpa [invocations] using run_cases_invocations _ _ _ _ _
  · simpa [invocations, ticks] using run_cases_ticks _ _ _ _ _

theorem count_kinds_failure_summary (colors : Bool) (l : List (test_case σ)) (k : Kind)
    (h1 : k ≠ .color) (h2 : k ≠ .failures_header) (h3 : k ≠ .failure_line) :
    (kinds (failure_summary colors l)).count k = 0 := by
  rw [List.count_eq_zero]
  intro hk
  rcases kinds_failure_summary colors l k hk with h | h | h <;> contradiction

theorem count_body_eq_length_invocations (t : List (Event σ)) :
    (kinds t).count .body = (invocations t).length := by
  induction t with
  | nil => rfl
  | cons e t ih => cases e <;> simp_all [invocations, Event.kind, List.count_cons]

/-- In a completed run the calls of before-each and after-each are those of the
loop: one per scheduled case when the hook is set. -/
theorem dry_run_done_count_each (shuffle : List (test_case σ) → List (test_case σ))
    (argv : List String) (tests : test_suite σ) (w : σ) (o : options)
    (hne : tests.test_list ≠ []) (hscan : scan_options argv = .done o) :
    (kinds (dry_run shuffle argv tests w).trace).count .before_each =
        (if tests.before_each_func.isSome then (schedule shuffle o tests.test_list).length
          else 0) ∧
      (kinds (dry_run shuffle argv tests w).trace).count .after_each =
        (if tests.after_each_func.isSome then (schedule shuffle o tests.test_list).length
          else 0) := by
  rw [dry_run_done shuffle argv tests w o hne hscan]
  simp only [kinds_append, kinds_cons, kinds_nil, List.count_append, kinds_call_hook,
    run_cases_count_before_each, run_cases_count_after_each, Event.kind]
  rw [count_kinds_failure_summary _ _ _ (by decide) (by decide) (by decide),
    count_kinds_failure_summary _ _ _ (by decide) (by decide) (by decide)]
  constructor <;> cases tests.before_func <;> cases tests.after_func <;> simp

end engine

/-! ## Lemmas on the failure summary -/

section summary
variable {σ : Type}

theorem unique_after_subset (last : test_case σ) (l : List (test_case σ)) :
    ∀ c ∈ unique_after last l, c ∈ l := by
  induction l generalizing last with
  | nil => simp [unique_after]
  | cons b rest ih =>
    intro c hc
    rw [unique_after] at hc
    split at hc
    · exact List.mem_cons_of_mem _ (ih last c hc)
    · rcases List.mem_cons.mp hc with h | h
      · exact h ▸ List.mem_cons_self _ _
      · exact List.mem_cons_of_mem _ (ih b c h)

/-- On a list sorted by description `std::unique` leaves strictly ascending
descriptions. -/
theorem pairwise_unique_after (last : test_case σ) (l : List (test_case σ))
    (h : (last :: l).Pairwise fun a b => a.desc ≤ b.desc) :
    (last :: unique_after last l).Pairwise fun a b => a.desc < b.desc := by
  induction l generalizing last with
  | nil => simp [unique_after]
  | cons b rest ih =>
    rw [List.pairwise_cons] at h
    obtain ⟨hl, hrest⟩ := h
    rw [unique_after]
    split
    · next heq =>
      apply ih
      rw [List.pairwise_cons]
      exact ⟨fun x hx => hl x (List.mem_cons_of_mem _ hx), (List.pairwise_cons.mp hrest).2⟩
    · next hne =>
      have hlt : last.desc < b.desc := lt_of_le_of_ne (hl b (List.mem_cons_self _ _)) hne
      have hb := ih b hrest
      rw [List.pairwise_cons]
      refine ⟨?_, hb⟩
      intro x hx
      rcases List.mem_cons.mp hx with hx | hx
      · exact hx ▸ hlt
      · exact lt_of_lt_of_le hlt
          ((List.pairwise_cons.mp hrest).1 x (unique_after_subset b rest x hx))

/-- The function `std::unique` keeps every description. -/
theorem desc_mem_unique_after (last : test_case σ) (l : List (test_case σ)) (d : String) :
    (∃ c ∈ last :: unique_after last l, c.desc = d) ↔ ∃ c ∈ last :: l, c.desc = d := by
  constructor
  · rintro ⟨c, hc, rfl⟩
    rcases List.mem_cons.mp hc with h | h
    · exact ⟨c, h ▸ List.mem_cons_self _ _, rfl⟩
    · exact ⟨c, List.mem_cons_of_mem _ (unique_after_subset last l c h), rfl⟩
  · induction l generalizing last with
    | nil => simp [unique_after]
    | cons b rest ih =>
      rintro ⟨c, hc, rfl⟩
      rw [unique_after]
      rcases List.mem_cons.mp hc with h | h
      · exact ⟨c, h ▸ List.mem_cons_self _ _, rfl⟩
      · split
        · next heq =>
          rcases List.mem_cons.mp h with h | h
          · exact ⟨last, List.mem_cons_self _ _, by rw [heq, h]⟩
          · exact ih last ⟨c, List.mem_cons_of_mem _ h, rfl⟩
        · next hne =>
          obtain ⟨c2, hc2, hd⟩ := ih b ⟨c, h, rfl⟩
          exact ⟨c2, List.mem_cons_of_mem _ hc2, hd⟩

theorem std_sort_sorted (l : List (test_case σ)) :
    (std_sort l).Pairwise fun a b => a.desc ≤ b.desc := by
  haveI : IsTotal (test_case σ) (fun a b => a.desc ≤ b.desc) :=
    ⟨fun a b => le_total a.desc b.desc⟩
  haveI : IsTrans (test_case σ) (fun a b => a.desc ≤ b.desc) :=
    ⟨fun _ _ _ hab hbc => le_trans hab hbc⟩
  exact List.sorted_insertionSort _ l

theorem mem_std_sort (l : List (test_case σ)) (c : test_case σ) : c ∈ std_sort l ↔ c ∈ l :=
  (List.perm_insertionSort _ l).mem_iff

/-- The descriptions the summary prints are strictly ascending. -/
theorem summary_descs_sorted (l : List (test_case σ)) :
    ((std_unique (std_sort l)).map test_case.desc).Sorted (· < ·) := by
  have h := std_sort_sorted l
  rw [List.Sorted, List.pairwise_map]
  cases hs : std_sort l with
  | nil => simp [std_unique]
  | cons a rest =>
    rw [hs] at h
    exact pairwise_unique_after a rest h

/-- The descriptions the summary prints are those of the failures. -/
theorem mem_summary_descs (l : List (test_case σ)) (d : String) :
    d ∈ (std_unique (std_sort l)).map test_case.desc ↔ ∃ c ∈ l, c.desc = d := by
  rw [List.mem_map]
  have hm : (∃ c ∈ l, c.desc = d) ↔ ∃ c ∈ std_sort l, c.desc = d := by
    constructor
    · rintro ⟨c, hc, h⟩; exact ⟨c, (mem_std_sort l c).mpr hc, h⟩
    · rintro ⟨c, hc, h⟩; exact ⟨c, (mem_std_sort l c).mp hc, h⟩
  rw [hm]
  cases std_sort l with
  | nil => simp [std_unique]
  | cons a rest => exact desc_mem_unique_after a rest d

theorem failure_lines_failure_rows (colors : Bool) (m : List (test_case σ)) :
    failure_lines (failure_rows colors m) = m.map test_case.desc := by
  induction m with
  | nil => rfl
  | cons c m ih =>
    rw [failure_rows, List.flatMap_cons, failure_lines_append, ← failure_rows, ih]
    cases colors <;> simp [color_if, failure_lines]

theorem failure_lines_failure_summary (colors : Bool) (l : List (test_case σ)) :
    failure_lines (failure_summary colors l) = (std_unique (std_sort l)).map test_case.desc := by
  unfold failure_summary
  split
  · next h =>
    rw [List.isEmpty_iff] at h
    subst h
    rfl
  · rw [failure_lines_append, failure_lines_failure_rows]
    cases colors <;> simp [color_if, failure_lines]

end summary

/-! ## The shape of a trace -/

section shape
variable {σ : Type}

/-- A call that does not reach the multiplication (empty list, help, a failed
scan) performs at most the before-all call and the help write. -/
theorem dry_run_not_done_kinds (shuffle : List (test_case σ) → List (test_case σ))
    (argv : List String) (tests : test_suite σ) (w : σ)
    (h : tests.test_list = [] ∨ ∀ o, scan_options argv ≠ .done o) :
    ∀ k ∈ kinds (dry_run shuffle argv tests w).trace, k = .before_all ∨ k = .help := by
  rcases h with h | h
  · rw [dry_run_empty shuffle argv tests w h]
    simp
  · unfold dry_run
    split
    · simp
    · cases hs : scan_options argv with
      | done o => exact absurd hs (h o)
      | help =>
        intro k hk
        simp only [kinds_append, kinds_call_hook, kinds_cons, kinds_nil, Event.kind,
          List.mem_append, List.mem_singleton] at hk
        rcases hk with hk | hk
        · split at hk <;> simp_all
        · exact Or.inr hk
      | stoi_threw =>
        intro k hk
        simp only [kinds_call_hook, Event.kind] at hk
        split at hk <;> simp_all
      | read_past_end i =>
        intro k hk
        simp only [kinds_call_hook, Event.kind] at hk
        split at hk <;> simp_all

/-- The trace of a completed run. -/
theorem dry_run_done_trace (shuffle : List (test_case σ) → List (test_case σ))
    (argv : List String) (tests : test_suite σ) (w : σ) (o : options)
    (hne : tests.test_list ≠ []) (hscan : scan_options argv = .done o) :
    ∃ (w1 w2 : σ) (l : List (test_case σ)),
      l = schedule shuffle o tests.test_list ∧
      (dry_run shuffle argv tests w).trace =
        (call_hook tests.before_func .before_all w).2 ++
          (run_cases o.colors tests.before_each_func tests.after_each_func l w1).trace ++
          [.newlines] ++ (call_hook tests.after_func .after_all w2).2 ++
          failure_summary o.colors
            (run_cases o.colors tests.before_each_func tests.after_each_func l w1).failures ++
          [.newlines] := by
  rw [dry_run_done shuffle argv tests w o hne hscan]
  exact ⟨_, _, _, rfl, rfl⟩

theorem mem_invocations_iff (t : List (Event σ)) (c : test_case σ) (r : Bool) :
    (c, r) ∈ invocations t ↔ Event.body c r ∈ t := by
  induction t with
  | nil => simp
  | cons e t ih =>
    cases e <;> simp_all [invocations]

end shape

/-! ## The order of the calls -/

section order
variable {σ : Type}

/-- Three phases in a row are in the order of the calls around the loop: only
before-all calls, then neither before-all nor after-all, then neither before-all
nor a call made per case. -/
theorem pairwise_around_order (A B C : List Kind) (hA : ∀ k ∈ A, k = .before_all)
    (hB : ∀ k ∈ B, k ≠ .before_all ∧ k ≠ .after_all)
    (hC : ∀ k ∈ C, k ≠ .before_all ∧ k.per_case = false) :
    (A ++ B ++ C).Pairwise around_order := by
  rw [List.pairwise_append, List.pairwise_append]
  refine ⟨⟨?_, ?_, ?_⟩, ?_, ?_⟩
  · refine List.pairwise_of_forall_mem_list fun a ha b _ => ?_
    rw [hA a ha]
    exact ⟨fun h => by simp [Kind.per_case] at h, fun h => by simp at h⟩
  · refine List.pairwise_of_forall_mem_list fun a ha b hb => ?_
    exact ⟨fun h => (hB b hb).1 h.2, fun h => (hB a ha).2 h.1⟩
  · intro a ha b hb
    rw [hA a ha]
    exact ⟨fun h => by simp [Kind.per_case] at h, fun h => by simp at h⟩
  · refine List.pairwise_of_forall_mem_list fun a _ b hb => ?_
    exact ⟨fun h => (hC b hb).1 h.2, fun h => by simp [(hC b hb).2] at h⟩
  · intro a _ b hb
    exact ⟨fun h => (hC b hb).1 h.2, fun h => by simp [(hC b hb).2] at h⟩

/-- The kinds of a completed run: at most one before-all call, the loop and two
newlines, then at most one after-all call, the summary and two newlines. -/
theorem dry_run_done_kinds (shuffle : List (test_case σ) → List (test_case σ))
    (argv : List String) (tests : test_suite σ) (w : σ) (o : options)
    (hne : tests.test_list ≠ []) (hscan : scan_options argv = .done o) :
    ∃ B S : List Kind,
      kinds (dry_run shuffle argv tests w).trace =
        (if tests.before_func.isSome then [Kind.before_all] else []) ++ (B ++ [.newlines]) ++
          ((if tests.after_func.isSome then [Kind.after_all] else []) ++ S ++ [.newlines]) ∧
      (∀ k ∈ B, k = .before_each ∨ k = .body ∨ k = .tick ∨ k = .color ∨ k = .after_each) ∧
      (∀ k ∈ S, k = .color ∨ k = .failures_header ∨ k = .failure_line) := by
  obtain ⟨w1, w2, l, -, hT⟩ := dry_run_done_trace shuffle argv tests w o hne hscan
  refine ⟨_, _, ?_, run_cases_kinds o.colors tests.before_each_func tests.after_each_func l w1,
    kinds_failure_summary o.colors
      (run_cases o.colors tests.before_each_func tests.after_each_func l w1).failures⟩
  rw [hT]
  simp only [kinds_append, kinds_cons, kinds_nil, kinds_call_hook, Event.kind,
    List.append_assoc]

/-- The kinds of a run that does not reach the multiplication. -/
theorem dry_run_not_done_kinds_eq (shuffle : List (test_case σ) → List (test_case σ))
    (argv : List String) (tests : test_suite σ) (w : σ) (hne : tests.test_list ≠ [])
    (hscan : ∀ o, scan_options argv ≠ .done o) :
    kinds (dry_run shuffle argv tests w).trace =
      (if tests.before_func.isSome then [Kind.before_all] else []) ++
        (if scan_options argv = .help then [Kind.help] else []) := by
  unfold dry_run
  rw [if_neg (by simpa using hne)]
  cases hs : scan_options argv with
  | done o => exact absurd hs (hscan o)
  | help => simp [kinds_call_hook, Event.kind]
  | stoi_threw => simp [kinds_call_hook, Event.kind]
  | read_past_end i => simp [kinds_call_hook, Event.kind]

/-- The registry a call leaves: only the test list is assigned, and only when
the run reaches the multiplication. -/
theorem dry_run_tests (shuffle : List (test_case σ) → List (test_case σ))
    (argv : List String) (tests : test_suite σ) (w : σ) :
    (dry_run shuffle argv tests w).tests =
      if tests.test_list.isEmpty then tests
      else
        match scan_options argv with
        | .done o => { tests with test_list := schedule shuffle o tests.test_list }
        | _ => tests := by
  unfold dry_run
  split
  · rfl
  · cases scan_options argv <;> rfl

end order

/-! ## Lemmas on the text of a trace -/

section text
variable {σ : Type}

theorem stdout_toList (t : List (Event σ)) : (stdout t).toList = chars t := by
  simp [stdout, chars, String.toList, String.data_join, List.flatMap, List.map_map,
    Function.comp_def]

@[simp] theorem chars_nil : chars ([] : List (Event σ)) = [] := rfl

@[simp] theorem chars_cons (e : Event σ) (t : List (Event σ)) :
    chars (e :: t) = e.text.toList ++ chars t := rfl

@[simp] theorem chars_append (s t : List (Event σ)) : chars (s ++ t) = chars s ++ chars t := by
  simp [chars]

theorem chars_call_hook (f : Option (σ → σ)) (e : Event σ) (w : σ) (he : e.text = "") :
    chars (call_hook f e w).2 = [] := by
  cases f <;> simp [call_hook, he]

/-- A loop over cases whose bodies return the value `f c` whatever the state:
the invocations and the failures. -/
theorem run_cases_fixed (colors : Bool) (be ae : Option (σ → σ)) (l : List (test_case σ))
    (w : σ) (f : test_case σ → Bool) (hf : ∀ c ∈ l, ∀ w, (c.test w).1 = f c) :
    invocations (run_cases colors be ae l w).trace = l.map (fun c => (c, f c)) ∧
      (run_cases colors be ae l w).failures = l.filter (fun c => !f c) := by
  induction l generalizing w with
  | nil => simp [run_cases]
  | cons it rest ih =>
    have hit := hf it (List.mem_cons_self _ _)
    have hrest := fun w => ih w (fun c hc => hf c (List.mem_cons_of_mem _ hc))
    simp only [run_cases, invocations_append, invocations_call_hook, invocations_tick_events,
      Event.kind, ne_eq, not_false_eq_true, reduceCtorEq, List.nil_append, List.append_nil,
      List.map_cons, hit, (hrest _).1, (hrest _).2, List.filter_cons]
    constructor
    · rfl
    · cases f it <;> simp

/-- Without colours a loop over passing cases writes one dot per case. -/
theorem chars_run_cases_pass (be ae : Option (σ → σ)) (l : List (test_case σ)) (w : σ)
    (hf : ∀ c ∈ l, ∀ w, (c.test w).1 = true) :
    chars (run_cases false be ae l w).trace = List.replicate l.length '.' := by
  induction l generalizing w with
  | nil => simp [run_cases]
  | cons it rest ih =>
    have hit := hf it (List.mem_cons_self _ _)
    have hrest := fun w => ih w (fun c hc => hf c (List.mem_cons_of_mem _ hc))
    simp only [run_cases, chars_append, chars_cons, chars_nil, hit, hrest, tick_events, color_if,
      chars_call_hook _ _ _ (rfl : (Event.before_each : Event σ).text = ""),
      chars_call_hook _ _ _ (rfl : (Event.after_each : Event σ).text = "")]
    simp [Event.text, List.replicate_succ]

end text

/-! ## Lemmas on the scheduled list -/

section scheduled
variable {σ : Type}

theorem mem_replicate_flatten (m : Nat) (l : List (test_case σ)) (c : test_case σ) :
    c ∈ (List.replicate m l).flatten ↔ m ≠ 0 ∧ c ∈ l := by
  induction m with
  | zero => simp
  | succ m ih =>
    rw [List.replicate_succ, List.flatten_cons, List.mem_append, ih]
    constructor
    · rintro (h | ⟨-, h⟩) <;> exact ⟨Nat.succ_ne_zero _, h⟩
    · rintro ⟨-, h⟩; exact Or.inl h

/-- The scheduled cases are the registered cases. -/
theorem mem_schedule (shuffle : List (test_case σ) → List (test_case σ))
    (hperm : ∀ l, (shuffle l).Perm l) (o : options) (l : List (test_case σ))
    (c : test_case σ) : c ∈ schedule shuffle o l ↔ c ∈ l := by
  rw [(schedule_perm shuffle hperm o l).mem_iff, mem_replicate_flatten]
  constructor
  · exact fun h => h.2
  · intro h
    refine ⟨?_, h⟩
    have : 1 ≤ max o.repeat_count 1 := le_max_right _ _
    omega

theorem length_schedule (shuffle : List (test_case σ) → List (test_case σ))
    (hperm : ∀ l, (shuffle l).Perm l) (o : options) (l : List (test_case σ)) :
    (schedule shuffle o l).length = (max o.repeat_count 1).toNat * l.length := by
  rw [(schedule_perm shuffle hperm o l).length_eq, length_replicate_flatten]

end scheduled

/-! ## Lemmas on the benchmark engine -/

section bench
variable {σ : Type}

theorem bench_scan_from_cons (a : String) (rest : List String) (colors : Bool) :
    bench_scan_from (a :: rest) colors =
      if a = "-c" then bench_scan_from rest true
      else if a = "-h" ∨ a = "--help" then .help
      else bench_scan_from rest colors := by
  rw [bench_scan_from]

/-- The scan of the benchmark engine stops at the first help token, wherever
it is. -/
theorem bench_scan_from_help (argv : List String) (colors : Bool)
    (h : "-h" ∈ argv ∨ "--help" ∈ argv) : bench_scan_from argv colors = .help := by
  induction argv generalizing colors with
  | nil => simp at h
  | cons a rest ih =>
    rw [bench_scan_from_cons]
    by_cases hc : a = "-c"
    · rw [if_pos hc]
      apply ih
      subst hc
      simpa using h
    · rw [if_neg hc]
      by_cases hh : a = "-h" ∨ a = "--help"
      · rw [if_pos hh]
      · rw [if_neg hh]
        apply ih
        simp only [List.mem_cons] at h
        rcases h with (h | h) | (h | h)
        · exact absurd (Or.inl h.symm) hh
        · exact Or.inl h
        · exact absurd (Or.inr h.symm) hh
        · exact Or.inr h

/-- Without a help token the scan of the benchmark engine completes, and
colours are on exactly when some token is `-c`. -/
theorem bench_scan_from_no_help (argv : List String) (colors : Bool)
    (h1 : "-h" ∉ argv) (h2 : "--help" ∉ argv) :
    bench_scan_from argv colors = .done (colors || decide ("-c" ∈ argv)) := by
  induction argv generalizing colors with
  | nil => simp [bench_scan_from]
  | cons a rest ih =>
    simp only [List.mem_cons, not_or] at h1 h2
    rw [bench_scan_from_cons]
    by_cases hc : a = "-c"
    · rw [if_pos hc, ih true h1.2 h2.2]
      simp [hc]
    · have hh : ¬ (a = "-h" ∨ a = "--help") := by
        rintro (h | h)
        · exact h1.1 h.symm
        · exact h2.1 h.symm
      rw [if_neg hc, if_neg hh, ih colors h1.2 h2.2]
      have : ¬ "-c" = a := fun h => hc h.symm
      simp [this]

@[simp] theorem bench_invocations_nil : bench_invocations ([] : List (BenchEvent σ)) = [] := rfl

@[simp] theorem bench_invocations_append (s t : List (BenchEvent σ)) :
    bench_invocations (s ++ t) = bench_invocations s ++ bench_invocations t := by
  simp [bench_invocations, List.filterMap_append]

@[simp] theorem bench_rows_nil : bench_rows ([] : List (BenchEvent σ)) = [] := rfl

@[simp] theorem bench_rows_append (s t : List (BenchEvent σ)) :
    bench_rows (s ++ t) = bench_rows s ++ bench_rows t := by
  simp [bench_rows, List.filterMap_append]

/-- The inner loop calls the body once per round and writes nothing. -/
theorem run_reps_trace (c : bench_case σ) (n : Nat) (w : σ) :
    (run_reps c n w).2 = List.replicate n (BenchEvent.body c) := by
  induction n generalizing w with
  | zero => rfl
  | succ n ih => simp [run_reps, ih, List.replicate_succ]

theorem bench_invocations_replicate (c : bench_case σ) (n : Nat) :
    bench_invocations (List.replicate n (BenchEvent.body c)) = List.replicate n c := by
  induction n with
  | zero => rfl
  | succ n ih =>
    rw [List.replicate_succ, List.replicate_succ, ← ih]
    rfl

theorem bench_rows_replicate (c : bench_case σ) (n : Nat) :
    bench_rows (List.replicate n (BenchEvent.body c)) = [] := by
  induction n with
  | zero => rfl
  | succ n ih =>
    rw [List.replicate_succ]
    exact ih

theorem bench_invocations_row (colors : Bool) (seconds : String) (c : bench_case σ) :
    bench_invocations (bench_row colors seconds c) = [] := by
  cases colors <;> rfl

theorem bench_rows_row (colors : Bool) (seconds : String) (c : bench_case σ) :
    bench_rows (bench_row colors seconds c) = [(c.reps, c.desc)] := by
  cases colors <;> rfl

theorem bench_invocations_header (colors : Bool) :
    bench_invocations (bench_header colors : List (BenchEvent σ)) = [] := by
  cases colors <;> rfl

theorem bench_rows_header (colors : Bool) :
    bench_rows (bench_header colors : List (BenchEvent σ)) = [] := by
  cases colors <;> rfl

/-- The outer loop: per case, in order, the body calls and then the row. -/
theorem run_benchmarks_trace (colors : Bool) (clock : Nat → String) (l : List (bench_case σ))
    (k : Nat) (w : σ) :
    (run_benchmarks colors clock l k w).2 =
      (l.enumFrom k).flatMap fun p =>
        List.replicate p.2.reps.toNat (BenchEvent.body p.2) ++
          bench_row colors (clock p.1) p.2 := by
  induction l generalizing k w with
  | nil => rfl
  | cons i rest ih =>
    simp only [run_benchmarks, run_reps_trace, ih, List.enumFrom_cons, List.flatMap_cons,
      List.append_assoc]

theorem run_benchmarks_invocations (colors : Bool) (clock : Nat → String)
    (l : List (bench_case σ)) (k : Nat) (w : σ) :
    bench_invocations (run_benchmarks colors clock l k w).2 =
      l.flatMap fun c => List.replicate c.reps.toNat c := by
  induction l generalizing k w with
  | nil => rfl
  | cons i rest ih =>
    simp only [run_benchmarks, run_reps_trace, ih, bench_invocations_append,
      bench_invocations_replicate, bench_invocations_row, List.flatMap_cons, List.append_nil]

theorem run_benchmarks_rows (colors : Bool) (clock : Nat → String)
    (l : List (bench_case σ)) (k : Nat) (w : σ) :
    bench_rows (run_benchmarks colors clock l k w).2 = l.map fun c => (c.reps, c.desc) := by
  induction l generalizing k w with
  | nil => rfl
  | cons i rest ih =>
    simp only [run_benchmarks, run_reps_trace, ih, bench_rows_append, bench_rows_replicate,
      bench_rows_row, List.map_cons, List.nil_append, List.singleton_append]

end bench

/-! ## Lemmas relating the two option scans -/

section scans
variable {σ : Type}

theorem stoi_flag_tokens : stoi "-d" = none ∧ stoi "-r" = none ∧ stoi "-c" = none := by decide

/-- Where the scan of `dry_run` ends in help or completes, the scan of the
benchmark engine started with the same colour flag ends the same way. -/
theorem scan_from_bench (argv : List String) (i : Nat) (o : options) :
    (scan_from argv i o = .help → bench_scan_from argv o.colors = .help) ∧
      (∀ o2, scan_from argv i o = .done o2 →
        bench_scan_from argv o.colors = .done o2.colors) := by
  induction argv, i, o using scan_from.induct with
  | case1 i o => simp [scan_from, bench_scan_from]
  | case2 rest i o ih => simpa [scan_from_cons, bench_scan_from_cons] using ih
  | case3 i o _ => simp [scan_from_cons]
  | case4 i o n rest2 hn _ => simp [scan_from_cons, hn]
  | case5 i o n rest2 v hv _ ih =>
    have h1 : ¬ n = "-c" := fun h => by rw [h, stoi_flag_tokens.2.2] at hv; cases hv
    have h2 : ¬ n = "-h" := fun h => by rw [h, stoi_help_tokens.1] at hv; cases hv
    have h3 : ¬ n = "--help" := fun h => by rw [h, stoi_help_tokens.2] at hv; cases hv
    simpa [scan_from_cons, bench_scan_from_cons, hv, h1, h2, h3] using ih
  | case6 rest i o _ _ ih => simpa [scan_from_cons, bench_scan_from_cons] using ih
  | case7 a rest i o h1 h2 h3 h4 => simp [scan_from_cons, bench_scan_from_cons, h1, h2, h3, h4]
  | case8 a rest i o h1 h2 h3 h4 ih =>
    simpa [scan_from_cons, bench_scan_from_cons, h1, h2, h3, h4] using ih

theorem help_not_mem_run_benchmarks (colors : Bool) (clock : Nat → String)
    (l : List (bench_case σ)) (k : Nat) (w : σ) :
    BenchEvent.help ∉ (run_benchmarks colors clock l k w).2 := by
  rw [run_benchmarks_trace]
  intro h
  obtain ⟨p, -, hp⟩ := List.mem_flatMap.mp h
  rcases List.mem_append.mp hp with h | h
  · cases (List.mem_replicate.mp h).2
  · cases colors <;> simp [bench_row, bench_color_if] at h

/-- The benchmark engine writes the help text exactly when its scan ends in
help. -/
theorem help_mem_dry_run_benchmarks (clock : Nat → String) (argv : List String)
    (benchmarks : bench_suite σ) (w : σ) :
    BenchEvent.help ∈ (dry_run_benchmarks clock argv benchmarks w).trace ↔
      bench_scan argv = .help := by
  unfold dry_run_benchmarks
  cases hs : bench_scan argv with
  | help => simp
  | done colors =>
    simp only [reduceCtorEq, iff_false]
    split
    · simp
    · intro h
      simp only [List.mem_append, List.mem_singleton, reduceCtorEq, or_false] at h
      rcases h with h | h
      · cases colors <;> simp [bench_header, bench_color_if] at h
      · exact help_not_mem_run_benchmarks _ _ _ _ _ h

/-- On a non-empty list the test engine writes the help text exactly when its
scan ends in help. -/
theorem help_mem_dry_run (shuffle : List (test_case σ) → List (test_case σ))
    (argv : List String) (tests : test_suite σ) (w : σ) (hne : tests.test_list ≠ []) :
    Kind.help ∈ kinds (dry_run shuffle argv tests w).trace ↔ scan_options argv = .help := by
  by_cases hdone : ∃ o, scan_options argv = .done o
  · obtain ⟨o, hscan⟩ := hdone
    obtain ⟨B, S, hk, hB, hS⟩ := dry_run_done_kinds shuffle argv tests w o hne hscan
    rw [hk, hscan]
    simp only [reduceCtorEq, iff_false, List.mem_append, List.mem_singleton, or_false, not_or]
    refine ⟨⟨?_, ?_⟩, ⟨?_, ?_⟩⟩
    · intro h; split at h <;> simp at h
    · intro h; rcases hB _ h with h | h | h | h | h <;> cases h
    · intro h; split at h <;> simp at h
    · intro h; rcases hS _ h with h | h | h <;> cases h
  · rw [dry_run_not_done_kinds_eq shuffle argv tests w hne (fun o ho => hdone ⟨o, ho⟩)]
    by_cases hh : scan_options argv = .help
    · simp [hh]
    · simp only [hh, if_false, List.append_nil, iff_false]
      intro h; split at h <;> simp at h

end scans

/-! ## Lemmas on the options the scan derives -/

theorem spec_repeat_cons (a : String) (rest : List String) :
    spec_repeat (a :: rest) =
      if "-r" ∈ rest then spec_repeat rest
      else if a = "-r" then (rest.head?.bind stoi).getD 0
      else 0 := by
  rw [spec_repeat]

/-- On a well-formed argument vector without a help token the scan started
with the options `o` completes: it adds the flags `-d` and `-c` that occur and
takes the value after the last `-r`. -/
theorem scan_from_spec (argv : List String) (i : Nat) (o : options)
    (hwf : well_formed argv = true) (h1 : "-h" ∉ argv) (h2 : "--help" ∉ argv) :
    scan_from argv i o =
      .done ⟨o.determinate || decide ("-d" ∈ argv), o.colors || decide ("-c" ∈ argv),
        if "-r" ∈ argv then spec_repeat argv else o.repeat_count⟩ := by
  induction argv, i, o using scan_from.induct with
  | case1 i o => simp [scan_from]
  | case2 rest i o ih =>
    have hwf2 : well_formed rest = true := by simpa [well_formed_cons] using hwf
    rw [scan_from_cons, if_pos rfl, ih hwf2 (by simpa using h1) (by simpa using h2),
      spec_repeat_cons]
    by_cases hr : "-r" ∈ rest <;> simp [hr]
  | case3 i o _ => simp [well_formed_cons] at hwf
  | case4 i o n rest2 hn _ => simp [well_formed_cons, hn] at hwf
  | case5 i o n rest2 v hv _ ih =>
    have hwf2 : well_formed rest2 = true := by
      simp only [well_formed_cons, if_true, Bool.and_eq_true] at hwf
      exact hwf.2
    have hd : ¬ "-d" = n := fun h => by rw [← h, stoi_flag_tokens.1] at hv; cases hv
    have hr : ¬ "-r" = n := fun h => by rw [← h, stoi_flag_tokens.2.1] at hv; cases hv
    have hc : ¬ "-c" = n := fun h => by rw [← h, stoi_flag_tokens.2.2] at hv; cases hv
    have hr2 : ¬ n = "-r" := fun h => hr h.symm
    simp only [List.mem_cons, not_or] at h1 h2
    rw [scan_from_cons, if_neg (by decide), if_pos rfl]
    simp only [hv]
    rw [ih hwf2 h1.2.2 h2.2.2, spec_repeat_cons, spec_repeat_cons]
    by_cases hrr : "-r" ∈ rest2 <;> simp [hrr, hd, hr, hc, hr2, hv]
  | case6 rest i o _ _ ih =>
    have hwf2 : well_formed rest = true := by simpa [well_formed_cons] using hwf
    rw [scan_from_cons, if_neg (by decide), if_neg (by decide), if_pos rfl,
      ih hwf2 (by simpa using h1) (by simpa using h2), spec_repeat_cons]
    by_cases hr : "-r" ∈ rest <;> simp [hr]
  | case7 a rest i o _ _ _ h4 =>
    rcases h4 with h | h
    · exact absurd (h ▸ List.mem_cons_self _ _) h1
    · exact absurd (h ▸ List.mem_cons_self _ _) h2
  | case8 a rest i o h5 h6 h7 h8 ih =>
    have hwf2 : well_formed rest = true := by simpa [well_formed_cons, h6] using hwf
    simp only [List.mem_cons, not_or] at h1 h2
    have hd : ¬ "-d" = a := fun h => h5 h.symm
    have hr : ¬ "-r" = a := fun h => h6 h.symm
    have hc : ¬ "-c" = a := fun h => h7 h.symm
    rw [scan_from_cons, if_neg h5, if_neg h6, if_neg h7, if_neg h8, ih hwf2 h1.2 h2.2,
      spec_repeat_cons]
    by_cases hrr : "-r" ∈ rest <;> simp [hrr, hd, hr, hc, h6]

/-- A completed scan does not depend on the position it is started at. -/
theorem scan_from_done_index (argv : List String) (i : Nat) (o : options) :
    ∀ j o2, scan_from argv i o = .done o2 → scan_from argv j o = .done o2 := by
  induction argv, i, o using scan_from.induct with
  | case1 i o => intro j o2 h; simpa [scan_from] using h
  | case2 rest i o ih =>
    intro j o2 h
    rw [scan_from_cons, if_pos rfl] at h ⊢
    exact ih (j + 1) o2 h
  | case3 i o _ => intro j o2 h; simp [scan_from_cons] at h
  | case4 i o n rest2 hn _ => intro j o2 h; simp [scan_from_cons, hn] at h
  | case5 i o n rest2 v hv _ ih =>
    intro j o2 h
    rw [scan_from_cons, if_neg (by decide), if_pos rfl] at h ⊢
    simp only [hv] at h ⊢
    exact ih (j + 2) o2 h
  | case6 rest i o _ _ ih =>
    intro j o2 h
    rw [scan_from_cons, if_neg (by decide), if_neg (by decide), if_pos rfl] at h ⊢
    exact ih (j + 1) o2 h
  | case7 a rest i o h1 h2 h3 h4 =>
    intro j o2 h
    simp [scan_from_cons, h1, h2, h3, h4] at h
  | case8 a rest i o h1 h2 h3 h4 ih =>
    intro j o2 h
    rw [scan_from_cons, if_neg h1, if_neg h2, if_neg h3, if_neg h4] at h ⊢
    exact ih (j + 1) o2 h

/-- A token that is no flag and does not follow a `-r` can be taken out of the
argument vector without changing a completed scan. -/
theorem scan_from_drop_unknown (t : String) (post : List String) (h1 : t ≠ "-d")
    (h2 : t ≠ "-r") (h3 : t ≠ "-c") (h4 : ¬ (t = "-h" ∨ t = "--help")) (pre : List String)
    (i : Nat) (o : options) :
    pre.getLast? ≠ some "-r" → ∀ j o2, scan_from (pre ++ t :: post) i o = .done o2 →
      scan_from (pre ++ post) j o = .done o2 := by
  induction pre, i, o using scan_from.induct with
  | case1 i o =>
    intro _ j o2 h
    rw [List.nil_append, scan_from_cons, if_neg h1, if_neg h2, if_neg h3, if_neg h4] at h
    exact scan_from_done_index post (i + 1) o j o2 h
  | case2 rest i o ih =>
    intro hl j o2 h
    rw [List.cons_append, scan_from_cons, if_pos rfl] at h ⊢
    refine ih ?_ (j + 1) o2 h
    cases rest with
    | nil => simp
    | cons b r => simpa [List.getLast?_cons_cons] using hl
  | case3 i o _ => intro hl; simp at hl
  | case4 i o n rest2 hn _ =>
    intro _ j o2 h
    simp [scan_from_cons, hn] at h
  | case5 i o n rest2 v hv _ ih =>
    intro hl j o2 h
    rw [List.cons_append, List.cons_append, scan_from_cons, if_neg (by decide), if_pos rfl]
      at h ⊢
    simp only [hv] at h ⊢
    refine ih ?_ (j + 2) o2 h
    cases rest2 with
    | nil => simp
    | cons b r => simpa [List.getLast?_cons_cons] using hl
  | case6 rest i o _ _ ih =>
    intro hl j o2 h
    rw [List.cons_append, scan_from_cons, if_neg (by decide), if_neg (by decide), if_pos rfl]
      at h ⊢
    refine ih ?_ (j + 1) o2 h
    cases rest with
    | nil => simp
    | cons b r => simpa [List.getLast?_cons_cons] using hl
  | case7 a rest i o h5 h6 h7 h8 =>
    intro _ j o2 h
    simp [scan_from_cons, h5, h6, h7, h8] at h
  | case8 a rest i o h5 h6 h7 h8 ih =>
    intro hl j o2 h
    rw [List.cons_append, scan_from_cons, if_neg h5, if_neg h6, if_neg h7, if_neg h8] at h ⊢
    refine ih ?_ (j + 1) o2 h
    cases rest with
    | nil => simp
    | cons b r => simpa [List.getLast?_cons_cons] using hl

/-! ## Lemmas on the calls of a trace -/

section calls
variable {σ : Type}

@[simp] theorem calls_nil : calls ([] : List (Event σ)) = [] := rfl

@[simp] theorem calls_append (s t : List (Event σ)) : calls (s ++ t) = calls s ++ calls t := by
  simp [calls]

@[simp] theorem ticks_cons_before_all (t : List (Event σ)) :
    ticks (.before_all :: t) = ticks t := rfl

@[simp] theorem ticks_cons_after_all (t : List (Event σ)) :
    ticks (.after_all :: t) = ticks t := rfl

@[simp] theorem failure_lines_cons_before_all (t : List (Event σ)) :
    failure_lines (.before_all :: t) = failure_lines t := rfl

@[simp] theorem failure_lines_cons_after_all (t : List (Event σ)) :
    failure_lines (.after_all :: t) = failure_lines t := rfl

theorem calls_call_hook (f : Option (σ → σ)) (e : Event σ) (w : σ)
    (he : e.kind.is_call = true) :
    calls (call_hook f e w).2 = if f.isSome then [e] else [] := by
  cases f <;> simp [call_hook, calls, he]

theorem calls_eq_nil_of_kinds (t : List (Event σ)) (h : ∀ k ∈ kinds t, k.is_call = false) :
    calls t = [] := by
  rw [calls, List.filter_eq_nil_iff]
  intro e he
  simpa using h e.kind (List.mem_map_of_mem _ he)

theorem calls_tick_events (colors r : Bool) : calls (tick_events colors r : List (Event σ)) = [] :=
  calls_eq_nil_of_kinds _ fun k hk => by
    rcases kinds_tick_events colors r k hk with h | h <;> rw [h] <;> rfl

theorem calls_failure_summary (colors : Bool) (l : List (test_case σ)) :
    calls (failure_summary colors l) = [] :=
  calls_eq_nil_of_kinds _ fun k hk => by
    rcases kinds_failure_summary colors l k hk with h | h | h <;> rw [h] <;> rfl

/-- The calls of the loop when both per-case hooks are set: per case
before-each, the body, after-each. -/
theorem calls_run_cases (colors : Bool) (be ae : Option (σ → σ)) (hbe : be.isSome = true)
    (hae : ae.isSome = true) (l : List (test_case σ)) (w : σ) :
    calls (run_cases colors be ae l w).trace =
      (l.zip (ticks (run_cases colors be ae l w).trace)).flatMap fun p =>
        [Event.before_each, Event.body p.1 p.2, Event.after_each] := by
  induction l generalizing w with
  | nil => simp [run_cases]
  | cons it rest ih =>
    simp only [run_cases, calls_append, ticks_append, calls_tick_events, ticks_tick_events,
      calls_call_hook _ _ _ (rfl : (Event.before_each : Event σ).kind.is_call = true),
      calls_call_hook _ _ _ (rfl : (Event.after_each : Event σ).kind.is_call = true),
      ticks_call_hook, Event.kind, ne_eq, not_false_eq_true, reduceCtorEq, hbe, hae, ih,
      if_true, List.nil_append, List.append_nil]
    simp [calls, ticks, Event.kind, Kind.is_call]

end calls

/-! ## Lemmas on the failure summary of cases with fixed outcomes -/

section fixed
variable {σ : Type}

/-- The description lines of a completed run are those of the failures of the
loop, sorted and made unique. -/
theorem dry_run_done_failure_lines (shuffle : List (test_case σ) → List (test_case σ))
    (argv : List String) (tests : test_suite σ) (w : σ) (o : options)
    (hne : tests.test_list ≠ []) (hscan : scan_options argv = .done o) :
    ∃ w1 : σ, failure_lines (dry_run shuffle argv tests w).trace =
      (std_unique (std_sort (run_cases o.colors tests.before_each_func tests.after_each_func
        (schedule shuffle o tests.test_list) w1).failures)).map test_case.desc := by
  obtain ⟨w1, w2, l, hl, hT⟩ := dry_run_done_trace shuffle argv tests w o hne hscan
  subst hl
  refine ⟨w1, ?_⟩
  rw [hT]
  simp only [failure_lines_append, failure_lines_call_hook, Event.kind, ne_eq,
    not_false_eq_true, reduceCtorEq, run_cases_failure_lines, failure_lines_failure_summary,
    failure_lines_cons_newlines, failure_lines_nil, List.nil_append, List.append_nil]

/-- With bodies whose value does not depend on the state, the description
lines of a completed run are strictly ascending and are the descriptions of the
registered cases whose body returns false. -/
theorem dry_run_failure_lines_fixed (shuffle : List (test_case σ) → List (test_case σ))
    (hperm : ∀ l, (shuffle l).Perm l) (argv : List String) (tests : test_suite σ) (w : σ)
    (o : options) (hne : tests.test_list ≠ []) (hscan : scan_options argv = .done o)
    (hfix : ∀ c ∈ tests.test_list, ∀ w w', (c.test w).1 = (c.test w').1) :
    (failure_lines (dry_run shuffle argv tests w).trace).Sorted (· < ·) ∧
      ∀ d, d ∈ failure_lines (dry_run shuffle argv tests w).trace ↔
        ∃ c ∈ tests.test_list, c.desc = d ∧ ∀ w, (c.test w).1 = false := by
  obtain ⟨w1, hfl⟩ := dry_run_done_failure_lines shuffle argv tests w o hne hscan
  have hmem := mem_schedule shuffle hperm o tests.test_list
  have hF := (run_cases_fixed o.colors tests.before_each_func tests.after_each_func
    (schedule shuffle o tests.test_list) w1 (fun c => (c.test w).1)
    (fun c hc w' => hfix c ((hmem c).mp hc) w' w)).2
  rw [hfl, hF]
  refine ⟨summary_descs_sorted _, fun d => ?_⟩
  rw [mem_summary_descs]
  constructor
  · rintro ⟨c, hc, hd⟩
    rw [List.mem_filter] at hc
    refine ⟨c, (hmem c).mp hc.1, hd, fun w' => ?_⟩
    rw [hfix c ((hmem c).mp hc.1) w' w]
    simpa using hc.2
  · rintro ⟨c, hc, hd, hf⟩
    refine ⟨c, ?_, hd⟩
    rw [List.mem_filter]
    exact ⟨(hmem c).mpr hc, by simp [hf w]⟩

/-- Two strictly ascending lists of descriptions with the same members are
equal. -/
theorem sorted_lt_ext (l1 l2 : List String) (h1 : l1.Sorted (· < ·)) (h2 : l2.Sorted (· < ·))
    (h : ∀ d, d ∈ l1 ↔ d ∈ l2) : l1 = l2 :=
  List.eq_of_perm_of_sorted ((List.perm_ext_iff_of_nodup h1.nodup h2.nodup).mpr h) h1 h2

end fixed

/-! ## Lemmas on the registry a completed run leaves -/

section stored
variable {σ : Type}

/-- A completed run leaves the scheduled list in the registry. -/
theorem dry_run_done_test_list (shuffle : List (test_case σ) → List (test_case σ))
    (argv : List String) (tests : test_suite σ) (w : σ) (o : options)
    (hne : tests.test_list ≠ []) (hscan : scan_options argv = .done o) :
    (dry_run shuffle argv tests w).tests.test_list = schedule shuffle o tests.test_list := by
  have hemp : tests.test_list.isEmpty = false := by simpa using hne
  rw [dry_run_tests, hscan]
  simp [hemp]

theorem dry_run_done_ticks_length (shuffle : List (test_case σ) → List (test_case σ))
    (hperm : ∀ l, (shuffle l).Perm l) (argv : List String) (tests : test_suite σ) (w : σ)
    (o : options) (hne : tests.test_list ≠ []) (hscan : scan_options argv = .done o) :
    (ticks (dry_run shuffle argv tests w).trace).length =
      (max o.repeat_count 1).toNat * tests.test_list.length := by
  obtain ⟨h1, h2⟩ := dry_run_done_observations shuffle argv tests w o hne hscan
  rw [h2, List.length_map, ← List.length_map (invocations _) Prod.fst, h1,
    length_schedule shuffle hperm]

/-- The number of ticks of call number `k + 1` of consecutive calls. -/
theorem dry_run_nth_ticks_length (argv : List String) (o : options)
    (hscan : scan_options argv = .done o) (k : Nat) :
    ∀ (shuffle : Nat → List (test_case σ) → List (test_case σ)),
      (∀ j l, (shuffle j l).Perm l) → ∀ (tests : test_suite σ) (w : σ), tests.test_list ≠ [] →
      (ticks (dry_run_nth shuffle argv k tests w).trace).length =
        (max o.repeat_count 1).toNat ^ (k + 1) * tests.test_list.length := by
  induction k with
  | zero =>
    intro shuffle hperm tests w hne
    rw [dry_run_nth, dry_run_done_ticks_length (shuffle 0) (hperm 0) argv tests w o hne hscan]
    simp
  | succ k ih =>
    intro shuffle hperm tests w hne
    have hlist := dry_run_done_test_list (shuffle 0) argv tests w o hne hscan
    have hlen := length_schedule (shuffle 0) (hperm 0) o tests.test_list
    have hpos : 1 ≤ (max o.repeat_count 1).toNat := by
      have : 1 ≤ max o.repeat_count 1 := le_max_right _ _
      omega
    have hne2 : (dry_run (shuffle 0) argv tests w).tests.test_list ≠ [] := by
      rw [hlist]
      intro h
      have h0 : (max o.repeat_count 1).toNat * tests.test_list.length = 0 := by
        rw [← hlen, h]
        rfl
      exact absurd h0 (Nat.pos_iff_ne_zero.mp (Nat.mul_pos hpos (List.length_pos.mpr hne)))
    rw [dry_run_nth, ih (fun j => shuffle (j + 1)) (fun j l => hperm (j + 1) l) _ _ hne2, hlist,
      hlen]
    ring

end stored

/-! ## Lemmas on escape sequences in a text -/

section escapes
variable {σ : Type}

theorem tokens_skip_succ (skip : Nat) (c : Char) (rest : List Char) :
    tokens_skip (skip + 1) (c :: rest) = tokens_skip skip rest := by
  rw [tokens_skip]

theorem tokens_skip_zero (c : Char) (rest : List Char) :
    tokens_skip 0 (c :: rest) =
      match sgr_at (c :: rest) with
      | some code => .sgr code :: tokens_skip (code.length - 1) rest
      | none => .char c :: tokens_skip 0 rest := by
  rw [tokens_skip]

theorem sgr_toList :
    COLOR_OFF.toList = [esc, '[', '0', 'm'] ∧ COLOR_RED.toList = [esc, '[', '3', '1', 'm'] ∧
      COLOR_GREEN.toList = [esc, '[', '3', '2', 'm'] ∧
      COLOR_MAGENTA.toList = [esc, '[', '3', '5', 'm'] := by
  decide

theorem sgr_length :
    COLOR_OFF.length = 4 ∧ COLOR_RED.length = 5 ∧ COLOR_GREEN.length = 5 ∧
      COLOR_MAGENTA.length = 5 := by
  decide

/-- A text that does not start with ESC starts with no SGR sequence. -/
theorem sgr_at_of_ne (c : Char) (rest : List Char) (h : c ≠ esc) : sgr_at (c :: rest) = none := by
  have h2 : ('\x1b' == c) = false := by simpa [esc] using fun h3 => h h3.symm
  simp only [sgr_at, sgr_sequences, List.find?, sgr_toList.1, sgr_toList.2.1, sgr_toList.2.2.1,
    sgr_toList.2.2.2, List.isPrefixOf, esc, h2, Bool.false_and]

/-- A text without ESC is split into its characters. -/
theorem tokens_skip_plain (s rest : List Char) (h : esc ∉ s) :
    tokens_skip 0 (s ++ rest) = s.map Token.char ++ tokens_skip 0 rest := by
  induction s with
  | nil => rfl
  | cons c s ih =>
    simp only [List.mem_cons, not_or] at h
    rw [List.cons_append, tokens_skip_zero, sgr_at_of_ne c _ (fun h2 => h.1 h2.symm), ih h.2]
    rfl

theorem sgr_at_sgr (rest : List Char) :
    sgr_at (esc :: '[' :: '0' :: 'm' :: rest) = some COLOR_OFF ∧
      sgr_at (esc :: '[' :: '3' :: '1' :: 'm' :: rest) = some COLOR_RED ∧
      sgr_at (esc :: '[' :: '3' :: '2' :: 'm' :: rest) = some COLOR_GREEN ∧
      sgr_at (esc :: '[' :: '3' :: '5' :: 'm' :: rest) = some COLOR_MAGENTA := by
  have e1 : ('\x1b' == '\x1b') = true := by decide
  have n5 : ('3' == '0') = false := by decide
  have n6 : ('2' == '1') = false := by decide
  have n7 : ('5' == '1') = false := by decide
  have n8 : ('5' == '2') = false := by decide
  have e2 : ('[' == '[') = true := by decide
  have e3 : ('0' == '0') = true := by decide
  have e4 : ('m' == 'm') = true := by decide
  have e5 : ('3' == '3') = true := by decide
  have e6 : ('1' == '1') = true := by decide
  have e7 : ('2' == '2') = true := by decide
  have e8 : ('5' == '5') = true := by decide
  have n1 : ('0' == '3') = false := by decide
  have n2 : ('1' == '2') = false := by decide
  have n3 : ('1' == '5') = false := by decide
  have n4 : ('2' == '5') = false := by decide
  refine ⟨?_, ?_, ?_, ?_⟩ <;>
    simp only [sgr_at, sgr_sequences, List.find?, sgr_toList.1, sgr_toList.2.1,
      sgr_toList.2.2.1, sgr_toList.2.2.2, List.isPrefixOf, esc, e1, e2, e3, e4, e5, e6, e7, e8,
      n1, n2, n3, n4, n5, n6, n7, n8, Bool.true_and, Bool.false_and, Bool.and_false,
      Bool.and_true]

/-- An SGR sequence at the start of a text is one piece. -/
theorem tokens_skip_sgr (code : String) (rest : List Char) (h : code ∈ sgr_sequences) :
    tokens_skip 0 (code.toList ++ rest) = Token.sgr code :: tokens_skip 0 rest := by
  simp only [sgr_sequences, List.mem_cons, List.mem_singleton, List.not_mem_nil, or_false] at h
  rcases h with rfl | rfl | rfl | rfl
  · rw [sgr_toList.1, List.cons_append, tokens_skip_zero, List.cons_append, List.cons_append,
      List.cons_append, List.nil_append, (sgr_at_sgr rest).1]
    simp only [sgr_length.1, Nat.add_one_sub_one, tokens_skip_succ]
  · rw [sgr_toList.2.1, List.cons_append, tokens_skip_zero, List.cons_append, List.cons_append,
      List.cons_append, List.cons_append, List.nil_append, (sgr_at_sgr rest).2.1]
    simp only [sgr_length.2.1, Nat.add_one_sub_one, tokens_skip_succ]
  · rw [sgr_toList.2.2.1, List.cons_append, tokens_skip_zero, List.cons_append,
      List.cons_append, List.cons_append, List.cons_append, List.nil_append,
      (sgr_at_sgr rest).2.2.1]
    simp only [sgr_length.2.2.1, Nat.add_one_sub_one, tokens_skip_succ]
  · rw [sgr_toList.2.2.2, List.cons_append, tokens_skip_zero, List.cons_append,
      List.cons_append, List.cons_append, List.cons_append, List.nil_append,
      (sgr_at_sgr rest).2.2.2]
    simp only [sgr_length.2.2.2, Nat.add_one_sub_one, tokens_skip_succ]

/-- The text of a clean event in front of a text is split into the pieces of
the event. -/
theorem tokens_skip_event (e : Event σ) (rest : List Char) (h : e.clean) :
    tokens_skip 0 (e.text.toList ++ rest) = e.tokens ++ tokens_skip 0 rest := by
  cases e with
  | color code => exact tokens_skip_sgr code rest h
  | before_all => exact tokens_skip_plain _ rest h
  | before_each => exact tokens_skip_plain _ rest h
  | body c r => exact tokens_skip_plain _ rest h
  | after_each => exact tokens_skip_plain _ rest h
  | after_all => exact tokens_skip_plain _ rest h
  | tick p => exact tokens_skip_plain _ rest h
  | help => exact tokens_skip_plain _ rest h
  | newlines => exact tokens_skip_plain _ rest h
  | failures_header => exact tokens_skip_plain _ rest h
  | failure_line d => exact tokens_skip_plain _ rest h

/-- The pieces of the output of a trace of clean events are the pieces of its
events. -/
theorem tokens_stdout (t : List (Event σ)) (h : ∀ e ∈ t, e.clean) :
    tokens (stdout t) = t.flatMap Event.tokens := by
  rw [tokens, stdout_toList]
  induction t with
  | nil => rfl
  | cons e t ih =>
    rw [chars_cons, tokens_skip_event e _ (h e (List.mem_cons_self _ _)),
      ih (fun e2 he2 => h e2 (List.mem_cons_of_mem _ he2)), List.flatMap_cons]

@[simp] theorem plain_nil : plain ([] : List (Event σ)) = [] := rfl

@[simp] theorem plain_append (s t : List (Event σ)) : plain (s ++ t) = plain s ++ plain t := by
  simp [plain]

@[simp] theorem color_codes_nil : color_codes ([] : List (Event σ)) = [] := rfl

@[simp] theorem color_codes_append (s t : List (Event σ)) :
    color_codes (s ++ t) = color_codes s ++ color_codes t := by
  simp [color_codes, List.filterMap_append]

/-- Removing the SGR sequences from the output of a trace of clean events
leaves the text of the events that are not colour writes. -/
theorem strip_sgr_stdout (t : List (Event σ)) (h : ∀ e ∈ t, e.clean) :
    strip_sgr (stdout t) = String.mk (chars (plain t)) := by
  rw [strip_sgr, tokens_stdout t h]
  congr 1
  clear h
  induction t with
  | nil => rfl
  | cons e t ih =>
    rw [List.flatMap_cons, List.filterMap_append, ih]
    cases e <;>
      simp [Event.tokens, plain, Event.kind, chars, List.filterMap_map, Function.comp_def]

/-- The SGR sequences in the output of a trace of clean events are those of
its colour writes. -/
theorem sgr_of_stdout (t : List (Event σ)) (h : ∀ e ∈ t, e.clean) :
    sgr_of (stdout t) = color_codes t := by
  rw [sgr_of, tokens_stdout t h]
  clear h
  induction t with
  | nil => rfl
  | cons e t ih =>
    rw [List.flatMap_cons, List.filterMap_append, ih]
    cases e <;>
      simp [Event.tokens, color_codes, List.filterMap_map, Function.comp_def]

/-! ### Clean traces -/

theorem clean_call_hook (f : Option (σ → σ)) (e : Event σ) (w : σ) (he : e.clean) :
    ∀ e2 ∈ (call_hook f e w).2, e2.clean := by
  cases f <;> simp [call_hook, he]

theorem clean_color_if (colors : Bool) (code : String) (h : code ∈ sgr_sequences) :
    ∀ e ∈ (color_if colors code : List (Event σ)), e.clean := by
  cases colors <;> simp [color_if, Event.clean, h]

theorem clean_tick_events (colors r : Bool) :
    ∀ e ∈ (tick_events colors r : List (Event σ)), e.clean := by
  cases colors <;> cases r <;>
    simp [tick_events, color_if, Event.clean, sgr_sequences, Event.text, esc]

theorem clean_run_cases (colors : Bool) (be ae : Option (σ → σ)) (l : List (test_case σ))
    (w : σ) : ∀ e ∈ (run_cases colors be ae l w).trace, e.clean := by
  induction l generalizing w with
  | nil => simp [run_cases]
  | cons it rest ih =>
    intro e he
    simp only [run_cases, List.mem_append, List.mem_singleton] at he
    rcases he with (((he | he) | he) | he) | he
    · exact clean_call_hook _ _ _ (by simp [Event.clean, Event.text]) e he
    · rw [he]; simp [Event.clean, Event.text]
    · exact clean_tick_events _ _ e he
    · exact clean_call_hook _ _ _ (by simp [Event.clean, Event.text]) e he
    · exact ih _ e he

theorem mem_std_unique (l : List (test_case σ)) (c : test_case σ) (h : c ∈ std_unique l) :
    c ∈ l := by
  cases l with
  | nil => simp [std_unique] at h
  | cons a rest =>
    rcases List.mem_cons.mp h with h | h
    · exact h ▸ List.mem_cons_self _ _
    · exact List.mem_cons_of_mem _ (unique_after_subset a rest c h)

theorem clean_failure_summary (colors : Bool) (l : List (test_case σ))
    (hl : ∀ c ∈ l, esc ∉ c.desc.toList) : ∀ e ∈ failure_summary colors l, e.clean := by
  unfold failure_summary
  split
  · simp
  · intro e he
    simp only [List.mem_append, List.mem_singleton] at he
    rcases he with ((he | he) | he) | he
    · exact clean_color_if _ _ (by simp [sgr_sequences]) e he
    · rw [he]; simp only [Event.clean, Event.text]; decide
    · exact clean_color_if _ _ (by simp [sgr_sequences]) e he
    · rw [failure_rows, List.mem_flatMap] at he
      obtain ⟨c, hc, he⟩ := he
      simp only [List.mem_append, List.mem_singleton] at he
      rcases he with (he | he) | he
      · exact clean_color_if _ _ (by simp [sgr_sequences]) e he
      · rw [he]
        have hd := hl c ((mem_std_sort l c).mp (mem_std_unique _ c hc))
        have hn : esc ∉ "\n".toList := by decide
        simp only [Event.clean, Event.text, String.toList, String.data_append, List.mem_append,
          not_or]
        exact ⟨hd, hn⟩
      · exact clean_color_if _ _ (by simp [sgr_sequences]) e he

theorem run_cases_failures_subset (colors : Bool) (be ae : Option (σ → σ))
    (l : List (test_case σ)) (w : σ) : ∀ c ∈ (run_cases colors be ae l w).failures, c ∈ l := by
  induction l generalizing w with
  | nil => simp [run_cases]
  | cons it rest ih =>
    intro c hc
    simp only [run_cases, List.mem_append] at hc
    rcases hc with hc | hc
    · split at hc
      · simp at hc
      · rw [List.mem_singleton.mp hc]; exact List.mem_cons_self _ _
    · exact List.mem_cons_of_mem _ (ih _ c hc)

/-- The events of a completed run are clean when the descriptions of the
scheduled cases are without ESC. -/
theorem clean_dry_run (shuffle : List (test_case σ) → List (test_case σ))
    (argv : List String) (tests : test_suite σ) (w : σ) (o : options)
    (hne : tests.test_list ≠ []) (hscan : scan_options argv = .done o)
    (hesc : ∀ c ∈ schedule shuffle o tests.test_list, esc ∉ c.desc.toList) :
    ∀ e ∈ (dry_run shuffle argv tests w).trace, e.clean := by
  obtain ⟨w1, w2, l, hl, hT⟩ := dry_run_done_trace shuffle argv tests w o hne hscan
  rw [hT]
  intro e he
  have hnl : (Event.newlines : Event σ).clean := by
    simp only [Event.clean, Event.text]; decide
  simp only [List.mem_append, List.mem_singleton] at he
  rcases he with ((((he | he) | he) | he) | he) | he
  · exact clean_call_hook _ _ _ (by simp [Event.clean, Event.text]) e he
  · exact clean_run_cases _ _ _ _ _ e he
  · rw [he]; exact hnl
  · exact clean_call_hook _ _ _ (by simp [Event.clean, Event.text]) e he
  · exact clean_failure_summary _ _
      (fun c hc => hesc c (hl ▸ run_cases_failures_subset _ _ _ _ _ c hc)) e he
  · rw [he]; exact hnl

/-! ### The events that are not colour writes -/

theorem call_hook_events (f : Option (σ → σ)) (e : Event σ) (w : σ) :
    (call_hook f e w).2 = if f.isSome then [e] else [] := by
  cases f <;> rfl

theorem plain_hook_events (f : Option (σ → σ)) (e : Event σ) (he : e.kind ≠ .color) :
    plain (if f.isSome then [e] else []) = if f.isSome then [e] else [] := by
  cases f <;> simp [plain, he]

theorem plain_color_if (colors : Bool) (code : String) :
    plain (color_if colors code : List (Event σ)) = [] := by
  cases colors <;> simp [color_if, plain, Event.kind]

theorem plain_tick_events (colors r : Bool) :
    plain (tick_events colors r : List (Event σ)) = [Event.tick r] := by
  cases colors <;> cases r <;> simp [tick_events, color_if, plain, Event.kind]

/-- The events of the loop other than colour writes, for bodies that return the
value `f c` whatever the state. -/
theorem plain_run_cases_fixed (colors : Bool) (be ae : Option (σ → σ))
    (l : List (test_case σ)) (w : σ) (f : test_case σ → Bool)
    (hf : ∀ c ∈ l, ∀ w, (c.test w).1 = f c) :
    plain (run_cases colors be ae l w).trace =
      l.flatMap fun c =>
        (if be.isSome then [Event.before_each] else []) ++
          [Event.body c (f c), Event.tick (f c)] ++
          (if ae.isSome then [Event.after_each] else []) := by
  induction l generalizing w with
  | nil => simp [run_cases]
  | cons it rest ih =>
    have hit := hf it (List.mem_cons_self _ _)
    have hrest := fun w => ih w (fun c hc => hf c (List.mem_cons_of_mem _ hc))
    simp only [run_cases, plain_append, call_hook_events, plain_tick_events, hit, hrest,
      plain_hook_events _ _ (by simp [Event.kind] : (Event.before_each : Event σ).kind ≠ .color),
      plain_hook_events _ _ (by simp [Event.kind] : (Event.after_each : Event σ).kind ≠ .color),
      List.flatMap_cons, List.append_assoc]
    simp [plain, Event.kind]

theorem plain_failure_rows (colors : Bool) (l : List (test_case σ)) :
    plain (failure_rows colors l) = l.map fun c => Event.failure_line c.desc := by
  induction l with
  | nil => rfl
  | cons c l ih =>
    rw [failure_rows, List.flatMap_cons, plain_append, ← failure_rows, ih]
    simp only [plain_append, plain_color_if, List.nil_append, List.append_nil, List.map_cons]
    simp [plain, Event.kind]

theorem plain_failure_summary (colors : Bool) (l : List (test_case σ)) :
    plain (failure_summary colors l) =
      if l.isEmpty then []
      else Event.failures_header ::
        (std_unique (std_sort l)).map fun c => Event.failure_line c.desc := by
  unfold failure_summary
  split
  · rfl
  · simp only [plain_append, plain_color_if, plain_failure_rows, List.nil_append,
      List.append_nil]
    simp [plain, Event.kind]

/-- The events of a completed run other than colour writes, for bodies that
return the value `f c` whatever the state: they depend on the scheduled list,
not on the colour flag or on the state. -/
theorem plain_dry_run_fixed (shuffle : List (test_case σ) → List (test_case σ))
    (argv : List String) (tests : test_suite σ) (w : σ) (o : options)
    (hne : tests.test_list ≠ []) (hscan : scan_options argv = .done o)
    (f : test_case σ → Bool)
    (hf : ∀ c ∈ schedule shuffle o tests.test_list, ∀ w, (c.test w).1 = f c) :
    plain (dry_run shuffle argv tests w).trace =
      (if tests.before_func.isSome then [Event.before_all] else []) ++
        ((schedule shuffle o tests.test_list).flatMap fun c =>
          (if tests.before_each_func.isSome then [Event.before_each] else []) ++
            [Event.body c (f c), Event.tick (f c)] ++
            (if tests.after_each_func.isSome then [Event.after_each] else [])) ++
        [Event.newlines] ++
        (if tests.after_func.isSome then [Event.after_all] else []) ++
        (if ((schedule shuffle o tests.test_list).filter fun c => !f c).isEmpty then []
          else Event.failures_header ::
            (std_unique (std_sort ((schedule shuffle o tests.test_list).filter
              fun c => !f c))).map fun c => Event.failure_line c.desc) ++
        [Event.newlines] := by
  obtain ⟨w1, w2, l, hl, hT⟩ := dry_run_done_trace shuffle argv tests w o hne hscan
  subst hl
  rw [hT]
  simp only [plain_append, call_hook_events, plain_failure_summary,
    plain_run_cases_fixed _ _ _ _ w1 f hf, (run_cases_fixed _ _ _ _ w1 f hf).2,
    plain_hook_events _ _ (by simp [Event.kind] : (Event.before_all : Event σ).kind ≠ .color),
    plain_hook_events _ _ (by simp [Event.kind] : (Event.after_all : Event σ).kind ≠ .color)]
  simp [plain, Event.kind]

/-! ### The colour writes -/

theorem reset_after_each_append (l1 l2 : List String) (h1 : reset_after_each l1)
    (h2 : reset_after_each l2) : reset_after_each (l1 ++ l2) := by
  induction l1 with
  | nil => exact h2
  | cons c rest ih =>
    obtain ⟨hc, hrest⟩ := h1
    refine ⟨?_, ih hrest⟩
    rcases hc with hc | hc
    · exact Or.inl hc
    · right
      cases rest with
      | nil => simp at hc
      | cons d r => simpa using hc

theorem color_codes_hook_events (f : Option (σ → σ)) (e : Event σ) (he : e.kind ≠ .color) :
    color_codes (if f.isSome then [e] else []) = [] := by
  cases f with
  | none => rfl
  | some g => cases e <;> simp_all [color_codes, Event.kind]

theorem reset_after_each_pair (c : String) : reset_after_each [c, COLOR_OFF] := by
  simp [reset_after_each]

theorem color_codes_tick_events (r : Bool) :
    color_codes (tick_events true r : List (Event σ)) =
      [if r then COLOR_GREEN else COLOR_RED, COLOR_OFF] := by
  cases r <;> simp [tick_events, color_if, color_codes]

theorem reset_after_each_run_cases (be ae : Option (σ → σ)) (l : List (test_case σ)) (w : σ) :
    reset_after_each (color_codes (run_cases true be ae l w).trace) := by
  induction l generalizing w with
  | nil => simp [run_cases, reset_after_each]
  | cons it rest ih =>
    simp only [run_cases, color_codes_append, call_hook_events, color_codes_tick_events,
      color_codes_hook_events _ _
        (by simp [Event.kind] : (Event.before_each : Event σ).kind ≠ .color),
      color_codes_hook_events _ _
        (by simp [Event.kind] : (Event.after_each : Event σ).kind ≠ .color),
      List.nil_append, List.append_nil]
    refine reset_after_each_append _ _ (reset_after_each_append _ _ ?_ ?_) (ih _)
    · simp [color_codes, reset_after_each]
    · exact reset_after_each_pair _

theorem reset_after_each_failure_rows (l : List (test_case σ)) :
    reset_after_each (color_codes (failure_rows true l)) := by
  induction l with
  | nil => simp [failure_rows, reset_after_each]
  | cons c l ih =>
    rw [failure_rows, List.flatMap_cons, color_codes_append, ← failure_rows]
    refine reset_after_each_append _ _ ?_ ih
    simp [color_if, color_codes, reset_after_each]

theorem reset_after_each_failure_summary (l : List (test_case σ)) :
    reset_after_each (color_codes (failure_summary true l)) := by
  unfold failure_summary
  split
  · simp [reset_after_each]
  · rw [color_codes_append]
    refine reset_after_each_append _ _ ?_ (reset_after_each_failure_rows _)
    simp [color_if, color_codes, reset_after_each]

/-- In a completed run with colours every colour-setting write is directly
followed by a write of the reset. -/
theorem reset_after_each_dry_run (shuffle : List (test_case σ) → List (test_case σ))
    (argv : List String) (tests : test_suite σ) (w : σ) (o : options)
    (hne : tests.test_list ≠ []) (hscan : scan_options argv = .done o)
    (hcol : o.colors = true) :
    reset_after_each (color_codes (dry_run shuffle argv tests w).trace) := by
  obtain ⟨w1, w2, l, hl, hT⟩ := dry_run_done_trace shuffle argv tests w o hne hscan
  rw [hT, hcol]
  simp only [color_codes_append, call_hook_events,
    color_codes_hook_events _ _
      (by simp [Event.kind] : (Event.before_all : Event σ).kind ≠ .color),
    color_codes_hook_events _ _
      (by simp [Event.kind] : (Event.after_all : Event σ).kind ≠ .color),
    List.nil_append, List.append_nil]
  have hn : reset_after_each (color_codes ([Event.newlines] : List (Event σ))) := by
    simp [color_codes, reset_after_each]
  exact reset_after_each_append _ _ (reset_after_each_append _ _
    (reset_after_each_append _ _ (reset_after_each_run_cases _ _ _ _) hn)
    (reset_after_each_failure_summary _)) hn

/-- Adding `-c` at the end of an argument vector on which the scan completes
turns the colours on and changes nothing else. -/
theorem scan_from_append_c (argv : List String) (i : Nat) (o : options) :
    ∀ o2, scan_from argv i o = .done o2 →
      scan_from (argv ++ ["-c"]) i o = .done { o2 with colors := true } := by
  induction argv, i, o using scan_from.induct with
  | case1 i o =>
    intro o2 h
    simp only [scan_from, scan_result.done.injEq] at h
    subst h
    simp [scan_from_cons, scan_from]
  | case2 rest i o ih =>
    intro o2 h
    rw [List.cons_append, scan_from_cons, if_pos rfl] at *
    exact ih o2 h
  | case3 i o _ => intro o2 h; simp [scan_from_cons] at h
  | case4 i o n rest2 hn _ => intro o2 h; simp [scan_from_cons, hn] at h
  | case5 i o n rest2 v hv _ ih =>
    intro o2 h
    rw [List.cons_append, List.cons_append, scan_from_cons, if_neg (by decide), if_pos rfl]
    rw [scan_from_cons, if_neg (by decide), if_pos rfl] at h
    simp only [hv] at h ⊢
    exact ih o2 h
  | case6 rest i o _ _ ih =>
    intro o2 h
    rw [List.cons_append, scan_from_cons, if_neg (by decide), if_neg (by decide), if_pos rfl]
    rw [scan_from_cons, if_neg (by decide), if_neg (by decide), if_pos rfl] at h
    exact ih o2 h
  | case7 a rest i o h1 h2 h3 h4 =>
    intro o2 h
    simp [scan_from_cons, h1, h2, h3, h4] at h
  | case8 a rest i o h1 h2 h3 h4 ih =>
    intro o2 h
    rw [List.cons_append, scan_from_cons, if_neg h1, if_neg h2, if_neg h3, if_neg h4]
    rw [scan_from_cons, if_neg h1, if_neg h2, if_neg h3, if_neg h4] at h
    exact ih o2 h

theorem mem_multiply (n : Int) (l : List (test_case σ)) (c : test_case σ)
    (h : c ∈ multiply n l) : c ∈ l := by
  rw [multiply_eq_flatten, mem_replicate_flatten] at h
  exact h.2

end escapes

/-! ## Theorems -/

/-- C1 (evaluation at the failing input): on scenario S2 (cases `a` passing,
`b` failing, `c` passing) with the arguments `prog -d`, which do not enable
colours, standard output is `.F`, the reset sequence `ESC[0m`, `.` and the
failure summary: the unguarded write of `COLOR_OFF` at line 172 puts the byte
0x1B into the output. -/
theorem dry_run_S2_output_has_escape :
    stdout (dry_run id ["prog", "-d"] suite_S2 ()).trace =
        ".F\x1b[0m.\n\nFailures: \nb\n\n\n" ∧
      Char.ofNat 0x1B ∈ (stdout (dry_run id ["prog", "-d"] suite_S2 ()).trace).toList := by
  decide

/-- C2: for a registry with a non-empty list, a shuffle that permutes, and an
argument vector on which the option scan completes (no help token, every `-r`
followed by an integer) with the repeat value `N`, a call of `dry_run` emits
exactly `max(N, 1) * |tests|` ticks, with or without `-d`; this holds for `N ≥ 0`
(and also for a negative `N`, where `max(N, 1) = 1`). -/
theorem dry_run_tick_count {σ : Type} (shuffle : List (test_case σ) → List (test_case σ))
    (hperm : ∀ l, (shuffle l).Perm l) (argv : List String) (tests : test_suite σ) (w : σ)
    (o : options) (hne : tests.test_list ≠ []) (hscan : scan_options argv = .done o) :
    (ticks (dry_run shuffle argv tests w).trace).length =
      (max o.repeat_count 1).toNat * tests.test_list.length := by
  obtain ⟨h1, h2⟩ := dry_run_done_observations shuffle argv tests w o hne hscan
  rw [h2, List.length_map, ← List.length_map (invocations _) Prod.fst, h1,
    (schedule_perm shuffle hperm o _).length_eq, length_replicate_flatten]

/-- Witness of C2: scenario S3, one passing case and `prog -d -r 4`, four ticks. -/
theorem dry_run_tick_count_witness :
    (ticks (dry_run id ["prog", "-d", "-r", "4"] (plain_suite [⟨"a", const_body true⟩])
      ()).trace).length = (max (4 : Int) 1).toNat * 1 :=
  dry_run_tick_count id (fun _ => List.Perm.refl _) ["prog", "-d", "-r", "4"]
    (plain_suite [⟨"a", const_body true⟩]) () ⟨true, false, 4⟩ (by simp [plain_suite])
    (by decide)

/-- C3: for a registry with a non-empty list, a shuffle that permutes, and an
argument vector on which the option scan completes with a repeat value `N > 0`,
the cases whose body a call of `dry_run` invokes are, up to order, `N` copies
of the registered list (every registered case exactly `N` times, not `N + 1`),
so there are `N * |tests|` body invocations; before-each is called
`N * |tests|` times when it is set (never otherwise), and so is after-each. -/
theorem dry_run_repeat_invocations {σ : Type}
    (shuffle : List (test_case σ) → List (test_case σ)) (hperm : ∀ l, (shuffle l).Perm l)
    (argv : List String) (tests : test_suite σ) (w : σ) (o : options)
    (hne : tests.test_list ≠ []) (hscan : scan_options argv = .done o)
    (hN : 0 < o.repeat_count) :
    ((invocations (dry_run shuffle argv tests w).trace).map Prod.fst).Perm
        (List.replicate o.repeat_count.toNat tests.test_list).flatten ∧
      (kinds (dry_run shuffle argv tests w).trace).count .body =
        o.repeat_count.toNat * tests.test_list.length ∧
      (kinds (dry_run shuffle argv tests w).trace).count .before_each =
        (if tests.before_each_func.isSome then o.repeat_count.toNat * tests.test_list.length
          else 0) ∧
      (kinds (dry_run shuffle argv tests w).trace).count .after_each =
        (if tests.after_each_func.isSome then o.repeat_count.toNat * tests.test_list.length
          else 0) := by
  have hmax : (max o.repeat_count 1).toNat = o.repeat_count.toNat := by
    rw [max_eq_left (by omega)]
  obtain ⟨h1, -⟩ := dry_run_done_observations shuffle argv tests w o hne hscan
  obtain ⟨h3, h4⟩ := dry_run_done_count_each shuffle argv tests w o hne hscan
  have hp := schedule_perm shuffle hperm o tests.test_list
  rw [hmax] at hp
  have hlen : (schedule shuffle o tests.test_list).length =
      o.repeat_count.toNat * tests.test_list.length := by
    rw [hp.length_eq, length_replicate_flatten]
  refine ⟨h1 ▸ hp, ?_, ?_, ?_⟩
  · rw [count_body_eq_length_invocations, ← List.length_map (invocations _) Prod.fst, h1, hlen]
  · rw [h3, hlen]
  · rw [h4, hlen]

/-- Witness of C3: two cases, both per-case hooks set, `prog -r 3`, and a
shuffle that reverses the list. -/
theorem dry_run_repeat_invocations_witness :
    ((invocations (dry_run List.reverse ["prog", "-r", "3"]
        (⟨[⟨"a", const_body true⟩, ⟨"b", const_body false⟩], none, some id, none, some id⟩ :
          test_suite Unit) ()).trace).map Prod.fst).Perm
        (List.replicate (3 : Int).toNat
          [(⟨"a", const_body true⟩ : test_case Unit), ⟨"b", const_body false⟩]).flatten ∧
      (kinds (dry_run List.reverse ["prog", "-r", "3"]
        (⟨[⟨"a", const_body true⟩, ⟨"b", const_body false⟩], none, some id, none, some id⟩ :
          test_suite Unit) ()).trace).count .body = (3 : Int).toNat * 2 ∧
      (kinds (dry_run List.reverse ["prog", "-r", "3"]
        (⟨[⟨"a", const_body true⟩, ⟨"b", const_body false⟩], none, some id, none, some id⟩ :
          test_suite Unit) ()).trace).count .before_each =
        (if (some id : Option (Unit → Unit)).isSome then (3 : Int).toNat * 2 else 0) ∧
      (kinds (dry_run List.reverse ["prog", "-r", "3"]
        (⟨[⟨"a", const_body true⟩, ⟨"b", const_body false⟩], none, some id, none, some id⟩ :
          test_suite Unit) ()).trace).count .after_each =
        (if (some id : Option (Unit → Unit)).isSome then (3 : Int).toNat * 2 else 0) :=
  dry_run_repeat_invocations List.reverse (fun l => List.reverse_perm l) ["prog", "-r", "3"]
    ⟨[⟨"a", const_body true⟩, ⟨"b", const_body false⟩], none, some id, none, some id⟩ ()
    ⟨false, false, 3⟩ (by simp) (by decide) (by decide)

/-- C4: for a registry with a non-empty list of `n` cases and an argument
vector on which the option scan completes with `-d` and the repeat value `N`,
the cases whose body `dry_run` invokes are, in this order, the registered list
concatenated `max(N, 1)` times: there are `max(N, 1) * n` invocations, the
`i`-th is of the case `c_(i mod n)`, and the ticks are, in order, the values
the invocations returned, a pass tick being `.` and a fail tick `F`. -/
theorem dry_run_determinate_schedule {σ : Type}
    (shuffle : List (test_case σ) → List (test_case σ)) (argv : List String)
    (tests : test_suite σ) (w : σ) (o : options) (hne : tests.test_list ≠ [])
    (hscan : scan_options argv = .done o) (hdet : o.determinate = true) :
    (invocations (dry_run shuffle argv tests w).trace).map Prod.fst =
        (List.replicate (max o.repeat_count 1).toNat tests.test_list).flatten ∧
      (invocations (dry_run shuffle argv tests w).trace).length =
        (max o.repeat_count 1).toNat * tests.test_list.length ∧
      (∀ i, i < (max o.repeat_count 1).toNat * tests.test_list.length →
        ((invocations (dry_run shuffle argv tests w).trace).map Prod.fst)[i]? =
          tests.test_list[i % tests.test_list.length]?) ∧
      ticks (dry_run shuffle argv tests w).trace =
        (invocations (dry_run shuffle argv tests w).trace).map Prod.snd ∧
      (∀ p : Bool, (Event.tick p : Event σ).text = if p then "." else "F") := by
  obtain ⟨h1, h2⟩ := dry_run_done_observations shuffle argv tests w o hne hscan
  have hs : schedule shuffle o tests.test_list =
      (List.replicate (max o.repeat_count 1).toNat tests.test_list).flatten := by
    rw [schedule, if_pos hdet, multiply_eq_flatten]
  rw [hs] at h1
  refine ⟨h1, ?_, ?_, h2, ?_⟩
  · rw [← List.length_map (invocations _) Prod.fst, h1, length_replicate_flatten]
  · intro i hi
    rw [h1, getElem?_replicate_flatten _ _ _ hi]
  · intro p
    cases p <;> rfl

/-- Witness of C4: scenario S2 run with `prog -d -r 2`. -/
theorem dry_run_determinate_schedule_witness :
    (invocations (dry_run id ["prog", "-d", "-r", "2"] suite_S2 ()).trace).map Prod.fst =
        (List.replicate (max (2 : Int) 1).toNat suite_S2.test_list).flatten ∧
      (invocations (dry_run id ["prog", "-d", "-r", "2"] suite_S2 ()).trace).length =
        (max (2 : Int) 1).toNat * suite_S2.test_list.length ∧
      (∀ i, i < (max (2 : Int) 1).toNat * suite_S2.test_list.length →
        ((invocations (dry_run id ["prog", "-d", "-r", "2"] suite_S2 ()).trace).map Prod.fst)[i]? =
          suite_S2.test_list[i % suite_S2.test_list.length]?) ∧
      ticks (dry_run id ["prog", "-d", "-r", "2"] suite_S2 ()).trace =
        (invocations (dry_run id ["prog", "-d", "-r", "2"] suite_S2 ()).trace).map Prod.snd ∧
      (∀ p : Bool, (Event.tick p : Event Unit).text = if p then "." else "F") :=
  dry_run_determinate_schedule id ["prog", "-d", "-r", "2"] suite_S2 () ⟨true, false, 2⟩
    (by simp [suite_S2, plain_suite]) (by decide) rfl

/-- C5: in every run of `dry_run` the descriptions written in the failure
summary are strictly ascending (hence without duplicates), and a description is
written exactly when some body invocation of that run of a case with this
description returned false; when some invocation returned false the header
`Failures: ` is written exactly once and every description line follows it. -/
theorem dry_run_failure_summary {σ : Type} (shuffle : List (test_case σ) → List (test_case σ))
    (argv : List String) (tests : test_suite σ) (w : σ) :
    (failure_lines (dry_run shuffle argv tests w).trace).Sorted (· < ·) ∧
      (∀ d, d ∈ failure_lines (dry_run shuffle argv tests w).trace ↔
        ∃ c, Event.body c false ∈ (dry_run shuffle argv tests w).trace ∧ c.desc = d) ∧
      ((∃ c, Event.body c false ∈ (dry_run shuffle argv tests w).trace) →
        ∃ pre post, (dry_run shuffle argv tests w).trace = pre ++ Event.failures_header :: post ∧
          Kind.failures_header ∉ kinds pre ∧ Kind.failure_line ∉ kinds pre ∧
          Kind.failures_header ∉ kinds post) := by
  by_cases hdone : tests.test_list ≠ [] ∧ ∃ o, scan_options argv = .done o
  · obtain ⟨hne, o, hscan⟩ := hdone
    obtain ⟨w1, w2, l, -, hT⟩ := dry_run_done_trace shuffle argv tests w o hne hscan
    rw [hT]
    have hF := run_cases_failures o.colors tests.before_each_func tests.after_each_func l w1
    have hKl := run_cases_failure_lines o.colors tests.before_each_func tests.after_each_func l w1
    have hKk := run_cases_kinds o.colors tests.before_each_func tests.after_each_func l w1
    generalize run_cases o.colors tests.before_each_func tests.after_each_func l w1 = K
      at hF hKl hKk ⊢
    have hfl : failure_lines ((call_hook tests.before_func Event.before_all w).2 ++ K.trace ++
        [Event.newlines] ++ (call_hook tests.after_func Event.after_all w2).2 ++
        failure_summary o.colors K.failures ++ [Event.newlines]) =
        (std_unique (std_sort K.failures)).map test_case.desc := by
      simp [failure_lines_call_hook, Event.kind, hKl, failure_lines_failure_summary]
    have hinv : ∀ c, Event.body c false ∈ (call_hook tests.before_func Event.before_all w).2 ++
        K.trace ++ [Event.newlines] ++ (call_hook tests.after_func Event.after_all w2).2 ++
        failure_summary o.colors K.failures ++ [Event.newlines] ↔ c ∈ K.failures := by
      intro c
      rw [← mem_invocations_iff, hF]
      simp [invocations_call_hook, Event.kind, invocations_failure_summary]
    refine ⟨?_, ?_, ?_⟩
    · rw [hfl]; exact summary_descs_sorted _
    · intro d
      rw [hfl, mem_summary_descs]
      constructor
      · rintro ⟨c, hc, hd⟩; exact ⟨c, (hinv c).mpr hc, hd⟩
      · rintro ⟨c, hc, hd⟩; exact ⟨c, (hinv c).mp hc, hd⟩
    · rintro ⟨c, hc⟩
      have hne2 : K.failures.isEmpty = false := by
        have := (hinv c).mp hc
        cases hK : K.failures with
        | nil => rw [hK] at this; cases this
        | cons a b => rfl
      refine ⟨(call_hook tests.before_func Event.before_all w).2 ++ K.trace ++
        [Event.newlines] ++ (call_hook tests.after_func Event.after_all w2).2 ++
        color_if o.colors COLOR_MAGENTA,
        color_if o.colors COLOR_OFF ++ failure_rows o.colors (std_unique (std_sort K.failures)) ++
        [Event.newlines], ?_, ?_, ?_, ?_⟩
      · simp [failure_summary, hne2]
      · intro h
        simp only [kinds_append, kinds_cons, kinds_nil, kinds_call_hook, Event.kind,
          List.mem_append, List.mem_singleton] at h
        rcases h with (((h | h) | h) | h) | h
        · split at h <;> simp at h
        · rcases hKk _ h with h | h | h | h | h <;> cases h
        · cases h
        · split at h <;> simp at h
        · cases kinds_color_if _ _ _ h
      · intro h
        simp only [kinds_append, kinds_cons, kinds_nil, kinds_call_hook, Event.kind,
          List.mem_append, List.mem_singleton] at h
        rcases h with (((h | h) | h) | h) | h
        · split at h <;> simp at h
        · rcases hKk _ h with h | h | h | h | h <;> cases h
        · cases h
        · split at h <;> simp at h
        · cases kinds_color_if _ _ _ h
      · intro h
        simp only [kinds_append, kinds_cons, kinds_nil, List.mem_append,
          List.mem_singleton, Event.kind] at h
        rcases h with (h | h) | h
        · cases kinds_color_if _ _ _ h
        · rcases kinds_failure_rows _ _ _ h with h | h <;> cases h
        · cases h
  · have hk := dry_run_not_done_kinds shuffle argv tests w (by
      by_cases hne : tests.test_list = []
      · exact Or.inl hne
      · exact Or.inr fun o ho => hdone ⟨hne, o, ho⟩)
    have h1 : failure_lines (dry_run shuffle argv tests w).trace = [] :=
      failure_lines_eq_nil_of_kinds _ fun h => by rcases hk _ h with h | h <;> cases h
    have h2 : invocations (dry_run shuffle argv tests w).trace = [] :=
      invocations_eq_nil_of_kinds _ fun h => by rcases hk _ h with h | h <;> cases h
    have h3 : ∀ c, Event.body c false ∉ (dry_run shuffle argv tests w).trace := by
      intro c hc
      rw [← mem_invocations_iff, h2] at hc
      cases hc
    refine ⟨?_, ?_, ?_⟩
    · rw [h1]; exact List.sorted_nil
    · intro d
      rw [h1]
      constructor
      · intro h; cases h
      · rintro ⟨c, hc, -⟩; exact absurd hc (h3 c)
    · rintro ⟨c, hc⟩; exact absurd hc (h3 c)

/-- C7: for every registry and every argument vector, a call of `dry_run`
calls before-all at most once and after-all at most once, and neither when the
test list is empty; and in the trace no before-all call comes after a call of a
body, of before-each or of after-each, and no after-all call comes before one. -/
theorem dry_run_before_after_all {σ : Type} (shuffle : List (test_case σ) → List (test_case σ))
    (argv : List String) (tests : test_suite σ) (w : σ) :
    (kinds (dry_run shuffle argv tests w).trace).count .before_all ≤
        (if tests.test_list.isEmpty then 0 else 1) ∧
      (kinds (dry_run shuffle argv tests w).trace).count .after_all ≤
        (if tests.test_list.isEmpty then 0 else 1) ∧
      (kinds (dry_run shuffle argv tests w).trace).Pairwise around_order := by
  by_cases hne : tests.test_list = []
  · rw [dry_run_empty shuffle argv tests w hne]
    simp
  · have hemp : tests.test_list.isEmpty = false := by simpa using hne
    rw [hemp]
    by_cases hdone : ∃ o, scan_options argv = .done o
    · obtain ⟨o, hscan⟩ := hdone
      obtain ⟨B, S, hk, hB, hS⟩ := dry_run_done_kinds shuffle argv tests w o hne hscan
      rw [hk]
      have cB : ∀ k, k = Kind.before_all ∨ k = Kind.after_all → B.count k = 0 := by
        intro k hk2
        rw [List.count_eq_zero]
        intro h
        rcases hk2 with rfl | rfl <;> rcases hB _ h with h | h | h | h | h <;> cases h
      have cS : ∀ k, k = Kind.before_all ∨ k = Kind.after_all → S.count k = 0 := by
        intro k hk2
        rw [List.count_eq_zero]
        intro h
        rcases hk2 with rfl | rfl <;> rcases hS _ h with h | h | h <;> cases h
      refine ⟨?_, ?_, ?_⟩
      · simp only [List.count_append, cB _ (Or.inl rfl), cS _ (Or.inl rfl)]
        cases tests.before_func <;> cases tests.after_func <;> simp
      · simp only [List.count_append, cB _ (Or.inr rfl), cS _ (Or.inr rfl)]
        cases tests.before_func <;> cases tests.after_func <;> simp
      · apply pairwise_around_order
        · intro k hk2
          split at hk2 <;> simp_all
        · intro k hk2
          rcases List.mem_append.mp hk2 with h | h
          · rcases hB _ h with h | h | h | h | h <;> simp [h]
          · simp at h; simp [h]
        · intro k hk2
          simp only [List.mem_append, List.mem_singleton] at hk2
          rcases hk2 with (h | h) | h
          · split at h <;> simp_all [Kind.per_case]
          · rcases hS _ h with h | h | h <;> simp [h, Kind.per_case]
          · simp [h, Kind.per_case]
    · have hk := dry_run_not_done_kinds_eq shuffle argv tests w hne
        (fun o ho => hdone ⟨o, ho⟩)
      rw [hk]
      refine ⟨?_, ?_, ?_⟩
      · cases tests.before_func <;> simp <;> split <;> simp
      · cases tests.before_func <;> simp <;> split <;> simp
      · have := pairwise_around_order
          (if tests.before_func.isSome then [Kind.before_all] else []) []
          (if scan_options argv = .help then [Kind.help] else [])
          (by intro k hk2; split at hk2 <;> simp_all) (by simp)
          (by intro k hk2; split at hk2 <;> simp_all [Kind.per_case])
        simpa using this

/-- C8: for every registry (with a non-empty list or not) and every argument
vector that contains the token `-h` or `--help` at any position, `dry_run` calls no body, no
before-each, no after-each and no after-all and writes no tick; the run ends in
the help write, or before it in a throw of `std::stoi` (a help token taken as the
argument of `-r`, or one after a malformed `-r` argument). -/
theorem dry_run_help_short_circuit {σ : Type}
    (shuffle : List (test_case σ) → List (test_case σ)) (argv : List String)
    (tests : test_suite σ) (w : σ) (hhelp : "-h" ∈ argv ∨ "--help" ∈ argv) :
    Kind.body ∉ kinds (dry_run shuffle argv tests w).trace ∧
      Kind.before_each ∉ kinds (dry_run shuffle argv tests w).trace ∧
      Kind.after_each ∉ kinds (dry_run shuffle argv tests w).trace ∧
      Kind.after_all ∉ kinds (dry_run shuffle argv tests w).trace ∧
      Kind.tick ∉ kinds (dry_run shuffle argv tests w).trace ∧
      ticks (dry_run shuffle argv tests w).trace = [] ∧
      invocations (dry_run shuffle argv tests w).trace = [] := by
  have hscan : ∀ o, scan_options argv ≠ .done o := by
    intro o ho
    rcases scan_from_help argv 0 ⟨false, false, 0⟩ hhelp with h | h <;>
      · rw [scan_options] at ho
        rw [ho] at h
        cases h
  have hk := dry_run_not_done_kinds shuffle argv tests w (Or.inr hscan)
  have hno : ∀ k, k ≠ Kind.before_all → k ≠ Kind.help →
      k ∉ kinds (dry_run shuffle argv tests w).trace := by
    intro k h1 h2 h
    rcases hk k h with h | h
    · exact h1 h
    · exact h2 h
  exact ⟨hno _ (by decide) (by decide), hno _ (by decide) (by decide),
    hno _ (by decide) (by decide), hno _ (by decide) (by decide),
    hno _ (by decide) (by decide),
    ticks_eq_nil_of_kinds _ (hno _ (by decide) (by decide)),
    invocations_eq_nil_of_kinds _ (hno _ (by decide) (by decide))⟩

/-- Witness of C8: scenario S2 with all four hooks set and the help token
directly after `-r`. -/
theorem dry_run_help_short_circuit_witness :
    Kind.body ∉ kinds (dry_run id ["prog", "-r", "--help"]
        { suite_S2 with before_func := some id, before_each_func := some id,
                        after_func := some id, after_each_func := some id } ()).trace ∧
      Kind.before_each ∉ kinds (dry_run id ["prog", "-r", "--help"]
        { suite_S2 with before_func := some id, before_each_func := some id,
                        after_func := some id, after_each_func := some id } ()).trace ∧
      Kind.after_each ∉ kinds (dry_run id ["prog", "-r", "--help"]
        { suite_S2 with before_func := some id, before_each_func := some id,
                        after_func := some id, after_each_func := some id } ()).trace ∧
      Kind.after_all ∉ kinds (dry_run id ["prog", "-r", "--help"]
        { suite_S2 with before_func := some id, before_each_func := some id,
                        after_func := some id, after_each_func := some id } ()).trace ∧
      Kind.tick ∉ kinds (dry_run id ["prog", "-r", "--help"]
        { suite_S2 with before_func := some id, before_each_func := some id,
                        after_func := some id, after_each_func := some id } ()).trace ∧
      ticks (dry_run id ["prog", "-r", "--help"]
        { suite_S2 with before_func := some id, before_each_func := some id,
                        after_func := some id, after_each_func := some id } ()).trace = [] ∧
      invocations (dry_run id ["prog", "-r", "--help"]
        { suite_S2 with before_func := some id, before_each_func := some id,
                        after_func := some id, after_each_func := some id } ()).trace = [] :=
  dry_run_help_short_circuit id ["prog", "-r", "--help"]
    { suite_S2 with before_func := some id, before_each_func := some id,
                    after_func := some id, after_each_func := some id } () (by simp)

/-- C6: for a registry whose test list is empty and every argument vector,
`dry_run` returns, performs no event at all (no output, no hook) and leaves the
registry and the state as they were. -/
theorem dry_run_empty_list {σ : Type} (shuffle : List (test_case σ) → List (test_case σ))
    (argv : List String) (tests : test_suite σ) (w : σ) (h : tests.test_list = []) :
    (dry_run shuffle argv tests w).outcome = .returned ∧
      (dry_run shuffle argv tests w).trace = [] ∧
      stdout (dry_run shuffle argv tests w).trace = "" ∧
      (dry_run shuffle argv tests w).tests = tests ∧
      (dry_run shuffle argv tests w).state = w := by
  rw [dry_run_empty shuffle argv tests w h]
  exact ⟨rfl, rfl, rfl, rfl, rfl⟩

/-- Witness of C6: the empty registry with four hooks set and `-r` as the last
token. -/
theorem dry_run_empty_list_witness :
    (dry_run id ["prog", "-h", "-r"] (⟨[], some id, some id, some id, some id⟩ : test_suite Unit)
        ()).outcome = .returned ∧
      (dry_run id ["prog", "-h", "-r"] (⟨[], some id, some id, some id, some id⟩ : test_suite Unit)
        ()).trace = [] ∧
      stdout (dry_run id ["prog", "-h", "-r"]
        (⟨[], some id, some id, some id, some id⟩ : test_suite Unit) ()).trace = "" ∧
      (dry_run id ["prog", "-h", "-r"] (⟨[], some id, some id, some id, some id⟩ : test_suite Unit)
        ()).tests = ⟨[], some id, some id, some id, some id⟩ ∧
      (dry_run id ["prog", "-h", "-r"] (⟨[], some id, some id, some id, some id⟩ : test_suite Unit)
        ()).state = () :=
  dry_run_empty_list id ["prog", "-h", "-r"] ⟨[], some id, some id, some id, some id⟩ () rfl

/-- C9 (counterexample): with one registered case and the arguments
`prog -d -r 2` the call returns and the registry then holds two cases, not one:
the test list after `dry_run` is not the test list before it. -/
theorem dry_run_registry_changed :
    (dry_run id ["prog", "-d", "-r", "2"] (plain_suite [⟨"a", const_body true⟩])
        ()).outcome = .returned ∧
      (dry_run id ["prog", "-d", "-r", "2"] (plain_suite [⟨"a", const_body true⟩])
        ()).tests.test_list.length = 2 ∧
      (plain_suite [⟨"a", const_body true⟩]).test_list.length = 1 ∧
      (dry_run id ["prog", "-d", "-r", "2"] (plain_suite [⟨"a", const_body true⟩])
        ()).tests.test_list ≠ (plain_suite [⟨"a", const_body true⟩]).test_list :=
  ⟨by decide, by decide, by decide, fun h => absurd (congrArg List.length h) (by decide)⟩

/-- C9 (amended): for every registry, every argument vector and a shuffle that
permutes, `dry_run` leaves the four hook slots as they were; it leaves the whole
registry as it was when the test list is empty or the option scan does not
complete (help, a throw of `std::stoi`, `-r` as last token); and when the scan
completes it stores the list it ran over: a permutation of the list before the
call concatenated `max(repeat, 1)` times, which with `-d` is exactly that
concatenation, and so with `-d` and `repeat ≤ 1` the list before the call. -/
theorem dry_run_registry_after {σ : Type} (shuffle : List (test_case σ) → List (test_case σ))
    (hperm : ∀ l, (shuffle l).Perm l) (argv : List String) (tests : test_suite σ) (w : σ) :
    ({ (dry_run shuffle argv tests w).tests with test_list := tests.test_list } = tests) ∧
      ((tests.test_list = [] ∨ ∀ o, scan_options argv ≠ .done o) →
        (dry_run shuffle argv tests w).tests = tests) ∧
      (∀ o, scan_options argv = .done o →
        (dry_run shuffle argv tests w).tests.test_list.Perm
            (List.replicate (max o.repeat_count 1).toNat tests.test_list).flatten ∧
          (o.determinate = true →
            (dry_run shuffle argv tests w).tests.test_list =
              (List.replicate (max o.repeat_count 1).toNat tests.test_list).flatten) ∧
          (o.determinate = true → o.repeat_count ≤ 1 →
            (dry_run shuffle argv tests w).tests.test_list = tests.test_list)) := by
  have ht := dry_run_tests shuffle argv tests w
  refine ⟨?_, ?_, ?_⟩
  · rw [ht]
    split
    · rfl
    · cases scan_options argv <;> rfl
  · rintro (h | h)
    · rw [dry_run_empty shuffle argv tests w h]
    · rw [ht]
      split
      · rfl
      · cases hs : scan_options argv with
        | done o => exact absurd hs (h o)
        | help => rfl
        | stoi_threw => rfl
        | read_past_end i => rfl
  · intro o hscan
    have hl : (dry_run shuffle argv tests w).tests.test_list =
        if tests.test_list.isEmpty then tests.test_list
        else schedule shuffle o tests.test_list := by
      rw [ht, hscan]
      split <;> rfl
    have hdet : o.determinate = true →
        (dry_run shuffle argv tests w).tests.test_list =
          (List.replicate (max o.repeat_count 1).toNat tests.test_list).flatten := by
      intro hd
      rw [hl]
      split
      · next h =>
        rw [List.isEmpty_iff] at h
        rw [h]
        simp
      · rw [schedule, if_pos hd, multiply_eq_flatten]
    refine ⟨?_, hdet, ?_⟩
    · rw [hl]
      split
      · next h =>
        rw [List.isEmpty_iff] at h
        rw [h]
        simp
      · exact schedule_perm shuffle hperm o tests.test_list
    · intro hd hr
      rw [hdet hd, max_eq_right hr]
      simp

/-- Witness of C9 (amended): scenario S2 with a shuffle that reverses the list
and the arguments `prog -r 2`. -/
theorem dry_run_registry_after_witness :
    ({ (dry_run List.reverse ["prog", "-r", "2"] suite_S2 ()).tests with
        test_list := suite_S2.test_list } = suite_S2) ∧
      ((suite_S2.test_list = [] ∨ ∀ o, scan_options ["prog", "-r", "2"] ≠ .done o) →
        (dry_run List.reverse ["prog", "-r", "2"] suite_S2 ()).tests = suite_S2) ∧
      (∀ o, scan_options ["prog", "-r", "2"] = .done o →
        (dry_run List.reverse ["prog", "-r", "2"] suite_S2 ()).tests.test_list.Perm
            (List.replicate (max o.repeat_count 1).toNat suite_S2.test_list).flatten ∧
          (o.determinate = true →
            (dry_run List.reverse ["prog", "-r", "2"] suite_S2 ()).tests.test_list =
              (List.replicate (max o.repeat_count 1).toNat suite_S2.test_list).flatten) ∧
          (o.determinate = true → o.repeat_count ≤ 1 →
            (dry_run List.reverse ["prog", "-r", "2"] suite_S2 ()).tests.test_list =
              suite_S2.test_list)) :=
  dry_run_registry_after List.reverse (fun l => List.reverse_perm l) ["prog", "-r", "2"]
    suite_S2 ()

/-- C10 (evaluation at the failing input): on the argument vector `prog -r`
(`argc = 2`) the option scan reads position 2, one past the last token, and the
call of `dry_run` on a non-empty registry ends there: it neither returns nor
reports a parse error. -/
theorem scan_options_reads_past_end :
    scan_options ["prog", "-r"] = .read_past_end 2 ∧
      ["prog", "-r"].length = 2 ∧
      (dry_run id ["prog", "-r"] suite_S2 ()).outcome = .out_of_bounds ∧
      stdout (dry_run id ["prog", "-r"] suite_S2 ()).trace = "" := by
  decide

/-- C11: for a registry with a non-empty list in which every body returns true
in every state, a shuffle that permutes, and an argument vector on which the
option scan completes without `-c`, standard output of `dry_run` is exactly
`max(repeat, 1) * |tests|` dots followed by four newline characters; the text
`Failures:` does not occur in it and the failure header is not written. -/
theorem dry_run_all_pass_output {σ : Type} (shuffle : List (test_case σ) → List (test_case σ))
    (hperm : ∀ l, (shuffle l).Perm l) (argv : List String) (tests : test_suite σ) (w : σ)
    (o : options) (hne : tests.test_list ≠ []) (hscan : scan_options argv = .done o)
    (hcol : o.colors = false) (hpass : ∀ c ∈ tests.test_list, ∀ w, (c.test w).1 = true) :
    stdout (dry_run shuffle argv tests w).trace =
        String.mk (List.replicate ((max o.repeat_count 1).toNat * tests.test_list.length) '.' ++
          ['\n', '\n', '\n', '\n']) ∧
      ¬ "Failures:".toList <:+: (stdout (dry_run shuffle argv tests w).trace).toList ∧
      Kind.failures_header ∉ kinds (dry_run shuffle argv tests w).trace := by
  obtain ⟨w1, w2, l, hl, hT⟩ := dry_run_done_trace shuffle argv tests w o hne hscan
  have hmem : ∀ c ∈ l, ∀ w, (c.test w).1 = true := fun c hc =>
    hpass c ((mem_schedule shuffle hperm o _ c).mp (hl ▸ hc))
  have hfail : (run_cases o.colors tests.before_each_func tests.after_each_func l w1).failures
      = [] := by
    rw [(run_cases_fixed _ _ _ l w1 (fun _ => true) hmem).2]
    simp
  have hlen : l.length = (max o.repeat_count 1).toNat * tests.test_list.length := by
    rw [hl, length_schedule shuffle hperm]
  have hchars : chars (dry_run shuffle argv tests w).trace =
      List.replicate ((max o.repeat_count 1).toNat * tests.test_list.length) '.' ++
        ['\n', '\n', '\n', '\n'] := by
    rw [hT, hfail, hcol]
    simp only [chars_append, chars_cons, chars_nil, chars_run_cases_pass _ _ l w1 hmem, hlen,
      chars_call_hook _ _ _ (rfl : (Event.before_all : Event σ).text = ""),
      chars_call_hook _ _ _ (rfl : (Event.after_all : Event σ).text = ""), failure_summary]
    simp [Event.text]
  refine ⟨?_, ?_, ?_⟩
  · apply String.ext
    rw [← String.toList, stdout_toList, hchars]
  · rw [stdout_toList, hchars]
    intro h
    have hF : 'F' ∈ List.replicate ((max o.repeat_count 1).toNat * tests.test_list.length) '.' ++
        ['\n', '\n', '\n', '\n'] := h.subset (by decide)
    simp at hF
  · rw [hT, hfail]
    intro h
    simp only [kinds_append, kinds_cons, kinds_nil, kinds_call_hook, Event.kind, failure_summary,
      List.mem_append, List.mem_singleton, List.isEmpty_nil, if_true, List.not_mem_nil,
      or_false, reduceCtorEq] at h
    rcases h with (h | h) | h
    · split at h <;> simp at h
    · rcases run_cases_kinds _ _ _ _ _ _ h with h | h | h | h | h <;> cases h
    · split at h <;> simp at h

/-- Witness of C11: scenario S1, three passing cases and `prog -d`. -/
theorem dry_run_all_pass_output_witness :
    stdout (dry_run id ["prog", "-d"]
        (plain_suite [⟨"a", const_body true⟩, ⟨"b", const_body true⟩, ⟨"c", const_body true⟩])
        ()).trace =
        String.mk (List.replicate ((max (0 : Int) 1).toNat *
          [(⟨"a", const_body true⟩ : test_case Unit), ⟨"b", const_body true⟩,
            ⟨"c", const_body true⟩].length) '.' ++ ['\n', '\n', '\n', '\n']) ∧
      ¬ "Failures:".toList <:+: (stdout (dry_run id ["prog", "-d"]
        (plain_suite [⟨"a", const_body true⟩, ⟨"b", const_body true⟩, ⟨"c", const_body true⟩])
        ()).trace).toList ∧
      Kind.failures_header ∉ kinds (dry_run id ["prog", "-d"]
        (plain_suite [⟨"a", const_body true⟩, ⟨"b", const_body true⟩, ⟨"c", const_body true⟩])
        ()).trace :=
  dry_run_all_pass_output id (fun _ => List.Perm.refl _) ["prog", "-d"]
    (plain_suite [⟨"a", const_body true⟩, ⟨"b", const_body true⟩, ⟨"c", const_body true⟩]) ()
    ⟨true, false, 0⟩ (by simp [plain_suite]) (by decide) rfl
    (by intro c hc w; simp [plain_suite] at hc; rcases hc with rfl | rfl | rfl <;> rfl)

/-- C12: for a bench registry with a non-empty list and an argument vector
without a help token, the scan completes (colours on exactly when some token is
`-c`) and the events of `dry_run_benchmarks` are the table header, then for each
case in registration order `reps` calls of its body (none when `reps ≤ 0`) with
nothing between them followed by its row, then two newlines; so the bodies
invoked are, in order, `reps_i` copies of each case, the rows are one per case
in registration order, and the text of a row ends in two tabs, the repetition
count, two tabs, the description and a newline. -/
theorem dry_run_benchmarks_rows {σ : Type} (clock : Nat → String) (argv : List String)
    (benchmarks : bench_suite σ) (w : σ) (hne : benchmarks.bench_list ≠ [])
    (h1 : "-h" ∉ argv) (h2 : "--help" ∉ argv) :
    bench_scan argv = .done (decide ("-c" ∈ argv)) ∧
      (dry_run_benchmarks clock argv benchmarks w).trace =
        bench_header (decide ("-c" ∈ argv)) ++
          (benchmarks.bench_list.enum.flatMap fun p =>
            List.replicate p.2.reps.toNat (BenchEvent.body p.2) ++
              bench_row (decide ("-c" ∈ argv)) (clock p.1) p.2) ++
          [BenchEvent.newlines] ∧
      bench_invocations (dry_run_benchmarks clock argv benchmarks w).trace =
        (benchmarks.bench_list.flatMap fun c => List.replicate c.reps.toNat c) ∧
      bench_rows (dry_run_benchmarks clock argv benchmarks w).trace =
        (benchmarks.bench_list.map fun c => (c.reps, c.desc)) ∧
      (∀ (colors : Bool) (s : String) (c : bench_case σ),
        ∃ pre, bench_row colors s c = pre ++ [BenchEvent.row c.reps c.desc] ∧
          (BenchEvent.row c.reps c.desc : BenchEvent σ).text =
            "\t\t" ++ toString c.reps ++ "\t\t" ++ c.desc ++ "\n") := by
  have hs : bench_scan argv = .done (decide ("-c" ∈ argv)) := by
    rw [bench_scan, bench_scan_from_no_help argv false h1 h2]
    simp
  have hemp : benchmarks.bench_list.isEmpty = false := by simpa using hne
  have ht : (dry_run_benchmarks clock argv benchmarks w).trace =
      bench_header (decide ("-c" ∈ argv)) ++
        (run_benchmarks (decide ("-c" ∈ argv)) clock benchmarks.bench_list 0 w).2 ++
        [BenchEvent.newlines] := by
    simp [dry_run_benchmarks, hs, hemp]
  refine ⟨hs, ?_, ?_, ?_, ?_⟩
  · rw [ht, run_benchmarks_trace, List.enum]
  · rw [ht]
    simp only [bench_invocations_append, bench_invocations_header, run_benchmarks_invocations,
      List.nil_append]
    simp [bench_invocations]
  · rw [ht]
    simp only [bench_rows_append, bench_rows_header, run_benchmarks_rows, List.nil_append]
    simp [bench_rows]
  · intro colors s c
    exact ⟨_, rfl, rfl⟩

/-- Witness of C12: scenario S6 with the arguments `prog -c`. -/
theorem dry_run_benchmarks_rows_witness :
    bench_scan ["prog", "-c"] = .done (decide ("-c" ∈ ["prog", "-c"])) ∧
      (dry_run_benchmarks (fun _ => "0.001") ["prog", "-c"] suite_S6 ()).trace =
        bench_header (decide ("-c" ∈ ["prog", "-c"])) ++
          (suite_S6.bench_list.enum.flatMap fun p =>
            List.replicate p.2.reps.toNat (BenchEvent.body p.2) ++
              bench_row (decide ("-c" ∈ ["prog", "-c"])) ((fun _ => "0.001") p.1) p.2) ++
          [BenchEvent.newlines] ∧
      bench_invocations (dry_run_benchmarks (fun _ => "0.001") ["prog", "-c"] suite_S6 ()).trace =
        (suite_S6.bench_list.flatMap fun c => List.replicate c.reps.toNat c) ∧
      bench_rows (dry_run_benchmarks (fun _ => "0.001") ["prog", "-c"] suite_S6 ()).trace =
        (suite_S6.bench_list.map fun c => (c.reps, c.desc)) ∧
      (∀ (colors : Bool) (s : String) (c : bench_case Unit),
        ∃ pre, bench_row colors s c = pre ++ [BenchEvent.row c.reps c.desc] ∧
          (BenchEvent.row c.reps c.desc : BenchEvent Unit).text =
            "\t\t" ++ toString c.reps ++ "\t\t" ++ c.desc ++ "\n") :=
  dry_run_benchmarks_rows (fun _ => "0.001") ["prog", "-c"] suite_S6 ()
    (by simp [suite_S6]) (by decide) (by decide)

/-- C15: for every bench registry (empty or not) and every argument vector with
the token `-h` or `--help` at any position, `dry_run_benchmarks` performs the
help write and nothing else: standard output is the help text and no body is
called; and for a bench registry with an empty list and an argument vector
without a help token it performs no event: standard output is empty. -/
theorem dry_run_benchmarks_help_or_empty {σ : Type} (clock : Nat → String)
    (argv : List String) (benchmarks : bench_suite σ) (w : σ) :
    (("-h" ∈ argv ∨ "--help" ∈ argv) →
        (dry_run_benchmarks clock argv benchmarks w).trace = [BenchEvent.help] ∧
          bench_stdout (dry_run_benchmarks clock argv benchmarks w).trace = help_text ∧
          bench_invocations (dry_run_benchmarks clock argv benchmarks w).trace = [] ∧
          (dry_run_benchmarks clock argv benchmarks w).state = w) ∧
      (benchmarks.bench_list = [] → "-h" ∉ argv → "--help" ∉ argv →
        (dry_run_benchmarks clock argv benchmarks w).trace = [] ∧
          bench_stdout (dry_run_benchmarks clock argv benchmarks w).trace = "" ∧
          (dry_run_benchmarks clock argv benchmarks w).state = w) := by
  constructor
  · intro h
    have hs : bench_scan argv = .help := bench_scan_from_help argv false h
    have ht : dry_run_benchmarks clock argv benchmarks w = ⟨w, [BenchEvent.help]⟩ := by
      simp [dry_run_benchmarks, hs]
    rw [ht]
    exact ⟨rfl, by simp [bench_stdout, String.join, BenchEvent.text], rfl, rfl⟩
  · intro he h1 h2
    have hs : bench_scan argv = .done (false || decide ("-c" ∈ argv)) :=
      bench_scan_from_no_help argv false h1 h2
    have ht : dry_run_benchmarks clock argv benchmarks w = ⟨w, []⟩ := by
      simp [dry_run_benchmarks, hs, he]
    rw [ht]
    exact ⟨rfl, rfl, rfl⟩

/-- C19: for every argument vector on which the scan of `dry_run` neither
throws in `std::stoi` nor reads past the end, the scan of `dry_run` ends in help
exactly when the scan of `dry_run_benchmarks` does, and when the scan of
`dry_run` completes, the scan of `dry_run_benchmarks` completes with the same
colour flag (and conversely); so on a non-empty test list `dry_run` writes the
help text exactly when `dry_run_benchmarks` does. -/
theorem scans_agree (argv : List String) (hthrow : scan_options argv ≠ .stoi_threw)
    (hpast : ∀ i, scan_options argv ≠ .read_past_end i) :
    (scan_options argv = .help ↔ bench_scan argv = .help) ∧
      (∀ o, scan_options argv = .done o → bench_scan argv = .done o.colors) ∧
      (∀ c, bench_scan argv = .done c → ∃ o, scan_options argv = .done o ∧ o.colors = c) ∧
      (∀ (σ : Type) (shuffle : List (test_case σ) → List (test_case σ)) (clock : Nat → String)
        (tests : test_suite σ) (benchmarks : bench_suite σ) (w : σ), tests.test_list ≠ [] →
        (Kind.help ∈ kinds (dry_run shuffle argv tests w).trace ↔
          BenchEvent.help ∈ (dry_run_benchmarks clock argv benchmarks w).trace)) := by
  have hb := scan_from_bench argv 0 ⟨false, false, 0⟩
  have hiff : scan_options argv = .help ↔ bench_scan argv = .help := by
    constructor
    · exact hb.1
    · intro h
      cases hs : scan_options argv with
      | help => rfl
      | done o =>
        have := hb.2 o hs
        rw [bench_scan] at h
        rw [h] at this
        cases this
      | stoi_threw => exact absurd hs hthrow
      | read_past_end i => exact absurd hs (hpast i)
  refine ⟨hiff, hb.2, ?_, ?_⟩
  · intro c hc
    cases hs : scan_options argv with
    | help =>
      rw [hiff.mp hs] at hc
      cases hc
    | done o =>
      have := hb.2 o hs
      rw [bench_scan] at hc
      rw [hc] at this
      exact ⟨o, rfl, by injection this with h; exact h.symm⟩
    | stoi_threw => exact absurd hs hthrow
    | read_past_end i => exact absurd hs (hpast i)
  · intro σ shuffle clock tests benchmarks w hne
    rw [help_mem_dry_run shuffle argv tests w hne, help_mem_dry_run_benchmarks, hiff]

/-- Witness of C19: `prog -r 3 -c`, where `dry_run` takes `3` as the argument
of `-r` and `dry_run_benchmarks` scans it as a token of its own. -/
theorem scans_agree_witness :
    (scan_options ["prog", "-r", "3", "-c"] = .help ↔
        bench_scan ["prog", "-r", "3", "-c"] = .help) ∧
      (∀ o, scan_options ["prog", "-r", "3", "-c"] = .done o →
        bench_scan ["prog", "-r", "3", "-c"] = .done o.colors) ∧
      (∀ c, bench_scan ["prog", "-r", "3", "-c"] = .done c →
        ∃ o, scan_options ["prog", "-r", "3", "-c"] = .done o ∧ o.colors = c) ∧
      (∀ (σ : Type) (shuffle : List (test_case σ) → List (test_case σ)) (clock : Nat → String)
        (tests : test_suite σ) (benchmarks : bench_suite σ) (w : σ), tests.test_list ≠ [] →
        (Kind.help ∈ kinds (dry_run shuffle ["prog", "-r", "3", "-c"] tests w).trace ↔
          BenchEvent.help ∈
            (dry_run_benchmarks clock ["prog", "-r", "3", "-c"] benchmarks w).trace)) :=
  scans_agree ["prog", "-r", "3", "-c"] (by decide) (fun i h => by
    rw [show scan_options ["prog", "-r", "3", "-c"] = .done ⟨false, true, 3⟩ by decide] at h
    cases h)

/-- C13: for a well-formed argument vector (every `-r` taken as a flag is
followed by a token that `std::stoi` converts) without a help token, the scan of
`dry_run` completes with the options of the specification: determinate exactly
when some token is `-d`, colours exactly when some token is `-c`, and repeat the
integer value of the token after the last `-r` (0 without `-r`); and a token
that is none of `-d`, `-r`, `-c`, `-h`, `--help` and does not follow a `-r`, at
any position (`argv[0]` too), can be taken out without changing the result. -/
theorem scan_options_spec (argv : List String) (hwf : well_formed argv = true)
    (h1 : "-h" ∉ argv) (h2 : "--help" ∉ argv) :
    scan_options argv = .done (spec_options argv) ∧
      (∀ pre t post, argv = pre ++ t :: post →
        t ≠ "-d" → t ≠ "-r" → t ≠ "-c" → t ≠ "-h" → t ≠ "--help" →
        pre.getLast? ≠ some "-r" → scan_options (pre ++ post) = scan_options argv) := by
  have hs : scan_options argv = .done (spec_options argv) := by
    rw [scan_options, scan_from_spec argv 0 _ hwf h1 h2, spec_options]
    congr 1
    by_cases hr : "-r" ∈ argv
    · simp [hr]
    · have h0 : spec_repeat argv = 0 := by
        clear hwf h1 h2
        induction argv with
        | nil => rfl
        | cons a rest ih =>
          simp only [List.mem_cons, not_or] at hr
          rw [spec_repeat_cons, if_neg hr.2, if_neg (fun h => hr.1 h.symm)]
      simp [hr, h0]
  refine ⟨hs, ?_⟩
  intro pre t post he ht1 ht2 ht3 ht4 ht5 hl
  subst he
  rw [hs]
  rw [scan_options] at hs
  exact scan_from_drop_unknown t post ht1 ht2 ht3 (by simp [ht4, ht5]) pre 0 _ hl 0 _ hs

/-- Witness of C13: `prog -r 2 x -c -r 7 -d`. -/
theorem scan_options_spec_witness :
    scan_options ["prog", "-r", "2", "x", "-c", "-r", "7", "-d"] =
        .done (spec_options ["prog", "-r", "2", "x", "-c", "-r", "7", "-d"]) ∧
      (∀ pre t post, ["prog", "-r", "2", "x", "-c", "-r", "7", "-d"] = pre ++ t :: post →
        t ≠ "-d" → t ≠ "-r" → t ≠ "-c" → t ≠ "-h" → t ≠ "--help" →
        pre.getLast? ≠ some "-r" →
        scan_options (pre ++ post) =
          scan_options ["prog", "-r", "2", "x", "-c", "-r", "7", "-d"]) :=
  scan_options_spec ["prog", "-r", "2", "x", "-c", "-r", "7", "-d"] (by decide) (by decide)
    (by decide)

/-- C14 (counterexample): with one registered passing case and the arguments
`prog -r 0` the scan completes with the repeat value 0, and `dry_run` invokes
the body once and writes one tick: the list is not multiplied to zero length. -/
theorem repeat_zero_runs_once :
    scan_options ["prog", "-r", "0"] = .done ⟨false, false, 0⟩ ∧
      (invocations (dry_run id ["prog", "-r", "0"] (plain_suite [⟨"a", const_body true⟩])
        ()).trace).length = 1 ∧
      ticks (dry_run id ["prog", "-r", "0"] (plain_suite [⟨"a", const_body true⟩])
        ()).trace = [true] ∧
      stdout (dry_run id ["prog", "-r", "0"] (plain_suite [⟨"a", const_body true⟩])
        ()).trace = ".\n\n\n\n" := by
  decide

/-- C14 (amended): for a registry with a non-empty list, a shuffle that
permutes, and an argument vector on which the scan completes with the repeat
value 0, the guard `repeat > 0` of line 142 leaves the list as it is: the cases
whose body `dry_run` invokes are, up to order, the registered cases, each once,
`|tests|` ticks are written (at least one), and the registry keeps `|tests|`
cases. -/
theorem dry_run_repeat_zero {σ : Type} (shuffle : List (test_case σ) → List (test_case σ))
    (hperm : ∀ l, (shuffle l).Perm l) (argv : List String) (tests : test_suite σ) (w : σ)
    (o : options) (hne : tests.test_list ≠ []) (hscan : scan_options argv = .done o)
    (h0 : o.repeat_count = 0) :
    ((invocations (dry_run shuffle argv tests w).trace).map Prod.fst).Perm tests.test_list ∧
      (ticks (dry_run shuffle argv tests w).trace).length = tests.test_list.length ∧
      0 < (ticks (dry_run shuffle argv tests w).trace).length ∧
      (dry_run shuffle argv tests w).tests.test_list.length = tests.test_list.length := by
  obtain ⟨h1, h2⟩ := dry_run_done_observations shuffle argv tests w o hne hscan
  have hp : (schedule shuffle o tests.test_list).Perm tests.test_list := by
    have := schedule_perm shuffle hperm o tests.test_list
    rw [h0] at this
    simpa using this
  have hlen : (ticks (dry_run shuffle argv tests w).trace).length = tests.test_list.length := by
    rw [h2, List.length_map, ← List.length_map (invocations _) Prod.fst, h1, hp.length_eq]
  refine ⟨h1 ▸ hp, hlen, ?_, ?_⟩
  · rw [hlen]
    exact List.length_pos.mpr hne
  · rw [dry_run_tests, hscan]
    have hemp : tests.test_list.isEmpty = false := by simpa using hne
    simp only [hemp, Bool.false_eq_true, if_false]
    exact hp.length_eq

/-- Witness of C14 (amended): scenario S2 with `prog -r 0` and a shuffle that
reverses the list. -/
theorem dry_run_repeat_zero_witness :
    ((invocations (dry_run List.reverse ["prog", "-r", "0"] suite_S2 ()).trace).map
        Prod.fst).Perm suite_S2.test_list ∧
      (ticks (dry_run List.reverse ["prog", "-r", "0"] suite_S2 ()).trace).length =
        suite_S2.test_list.length ∧
      0 < (ticks (dry_run List.reverse ["prog", "-r", "0"] suite_S2 ()).trace).length ∧
      (dry_run List.reverse ["prog", "-r", "0"] suite_S2 ()).tests.test_list.length =
        suite_S2.test_list.length :=
  dry_run_repeat_zero List.reverse (fun l => List.reverse_perm l) ["prog", "-r", "0"] suite_S2 ()
    ⟨false, false, 0⟩ (by simp [suite_S2, plain_suite]) (by decide) rfl

/-- C16: for a registry with a non-empty list and all four hooks set, and an
argument vector on which the scan completes with `-d`, the calls `dry_run`
makes are exactly: before-all, then for each case of the registered list
concatenated `max(repeat, 1)` times, in order, before-each, the body of that
case (returning the value of the tick at the same position) and after-each,
then after-all; and the after-all call comes directly after the two newlines
that follow the ticks: before them lie all ticks, no other newlines and nothing
of the failure summary, after the call only the failure summary and the
closing newlines. -/
theorem dry_run_call_sequence {σ : Type} (shuffle : List (test_case σ) → List (test_case σ))
    (argv : List String) (tests : test_suite σ) (w : σ) (o : options)
    (hne : tests.test_list ≠ []) (hscan : scan_options argv = .done o)
    (hdet : o.determinate = true) (hb : tests.before_func.isSome = true)
    (hbe : tests.before_each_func.isSome = true) (ha : tests.after_func.isSome = true)
    (hae : tests.after_each_func.isSome = true) :
    calls (dry_run shuffle argv tests w).trace =
        Event.before_all ::
          (((List.replicate (max o.repeat_count 1).toNat tests.test_list).flatten.zip
            (ticks (dry_run shuffle argv tests w).trace)).flatMap fun p =>
              [Event.before_each, Event.body p.1 p.2, Event.after_each]) ++
          [Event.after_all] ∧
      (ticks (dry_run shuffle argv tests w).trace).length =
        (max o.repeat_count 1).toNat * tests.test_list.length ∧
      ∃ pre post, (dry_run shuffle argv tests w).trace =
          pre ++ Event.newlines :: Event.after_all :: post ∧
        ticks pre = ticks (dry_run shuffle argv tests w).trace ∧
        Kind.newlines ∉ kinds pre ∧ Kind.failures_header ∉ kinds pre ∧
        Kind.failure_line ∉ kinds pre ∧
        (∀ k ∈ kinds post,
          k = .color ∨ k = .failures_header ∨ k = .failure_line ∨ k = .newlines) ∧
        failure_lines post = failure_lines (dry_run shuffle argv tests w).trace := by
  obtain ⟨w1, w2, l, hl, hT⟩ := dry_run_done_trace shuffle argv tests w o hne hscan
  have hs : l = (List.replicate (max o.repeat_count 1).toNat tests.test_list).flatten := by
    rw [hl, schedule, if_pos hdet, multiply_eq_flatten]
  have hKk := run_cases_kinds o.colors tests.before_each_func tests.after_each_func l w1
  have hKl := run_cases_failure_lines o.colors tests.before_each_func tests.after_each_func l w1
  have hKc := calls_run_cases o.colors tests.before_each_func tests.after_each_func hbe hae l w1
  have hKi := run_cases_invocations o.colors tests.before_each_func tests.after_each_func l w1
  have hKt := run_cases_ticks o.colors tests.before_each_func tests.after_each_func l w1
  have hbt : (call_hook tests.before_func Event.before_all w).2 = [Event.before_all] := by
    cases hf : tests.before_func with
    | none => rw [hf] at hb; cases hb
    | some g => rfl
  have hat : (call_hook tests.after_func Event.after_all w2).2 = [Event.after_all] := by
    cases hf : tests.after_func with
    | none => rw [hf] at ha; cases ha
    | some g => rfl
  rw [hbt, hat] at hT
  generalize run_cases o.colors tests.before_each_func tests.after_each_func l w1 = K
    at hT hKk hKl hKc hKi hKt
  have hticks : ticks (dry_run shuffle argv tests w).trace = ticks K.trace := by
    rw [hT]
    simp only [ticks_append, ticks_failure_summary, List.singleton_append,
      ticks_cons_before_all, ticks_cons_after_all, ticks_cons_newlines, ticks_nil,
      List.append_nil]
  refine ⟨?_, ?_, [Event.before_all] ++ K.trace,
    failure_summary o.colors K.failures ++ [Event.newlines], ?_, ?_, ?_, ?_, ?_, ?_, ?_⟩
  · rw [hticks, hT]
    simp only [calls_append, calls_failure_summary, hKc, hs, List.append_nil]
    simp [calls, Event.kind, Kind.is_call]
  · rw [hticks, hKt, List.length_map, ← List.length_map (invocations _) Prod.fst, hKi, hs,
      length_replicate_flatten]
  · rw [hT]
    simp
  · rw [hticks]
    simp only [List.singleton_append, ticks_cons_before_all]
  · intro h
    simp only [kinds_append, kinds_cons, kinds_nil, Event.kind, List.mem_append,
      List.mem_singleton, reduceCtorEq, false_or] at h
    rcases hKk _ h with h | h | h | h | h <;> cases h
  · intro h
    simp only [kinds_append, kinds_cons, kinds_nil, Event.kind, List.mem_append,
      List.mem_singleton, reduceCtorEq, false_or] at h
    rcases hKk _ h with h | h | h | h | h <;> cases h
  · intro h
    simp only [kinds_append, kinds_cons, kinds_nil, Event.kind, List.mem_append,
      List.mem_singleton, reduceCtorEq, false_or] at h
    rcases hKk _ h with h | h | h | h | h <;> cases h
  · intro k hk
    simp only [kinds_append, kinds_cons, kinds_nil, Event.kind, List.mem_append,
      List.mem_singleton] at hk
    rcases hk with hk | hk
    · rcases kinds_failure_summary _ _ _ hk with h | h | h <;> simp [h]
    · simp [hk]
  · rw [hT]
    simp only [failure_lines_append, List.singleton_append, failure_lines_cons_before_all,
      failure_lines_cons_after_all, failure_lines_cons_newlines, failure_lines_nil, hKl,
      List.nil_append, List.append_nil]

/-- Witness of C16: scenario S2 with all four hooks set and `prog -d -r 2`. -/
theorem dry_run_call_sequence_witness :
    calls (dry_run id ["prog", "-d", "-r", "2"]
        { suite_S2 with before_func := some id, before_each_func := some id,
                        after_func := some id, after_each_func := some id } ()).trace =
        Event.before_all ::
          (((List.replicate (max (2 : Int) 1).toNat suite_S2.test_list).flatten.zip
            (ticks (dry_run id ["prog", "-d", "-r", "2"]
              { suite_S2 with before_func := some id, before_each_func := some id,
                              after_func := some id, after_each_func := some id }
              ()).trace)).flatMap fun p =>
              [Event.before_each, Event.body p.1 p.2, Event.after_each]) ++
          [Event.after_all] ∧
      (ticks (dry_run id ["prog", "-d", "-r", "2"]
        { suite_S2 with before_func := some id, before_each_func := some id,
                        after_func := some id, after_each_func := some id } ()).trace).length =
        (max (2 : Int) 1).toNat * suite_S2.test_list.length ∧
      ∃ pre post, (dry_run id ["prog", "-d", "-r", "2"]
          { suite_S2 with before_func := some id, before_each_func := some id,
                          after_func := some id, after_each_func := some id } ()).trace =
          pre ++ Event.newlines :: Event.after_all :: post ∧
        ticks pre = ticks (dry_run id ["prog", "-d", "-r", "2"]
          { suite_S2 with before_func := some id, before_each_func := some id,
                          after_func := some id, after_each_func := some id } ()).trace ∧
        Kind.newlines ∉ kinds pre ∧ Kind.failures_header ∉ kinds pre ∧
        Kind.failure_line ∉ kinds pre ∧
        (∀ k ∈ kinds post,
          k = .color ∨ k = .failures_header ∨ k = .failure_line ∨ k = .newlines) ∧
        failure_lines post = failure_lines (dry_run id ["prog", "-d", "-r", "2"]
          { suite_S2 with before_func := some id, before_each_func := some id,
                          after_func := some id, after_each_func := some id } ()).trace :=
  dry_run_call_sequence id ["prog", "-d", "-r", "2"]
    { suite_S2 with before_func := some id, before_each_func := some id,
                    after_func := some id, after_each_func := some id } ()
    ⟨true, false, 2⟩ (by simp [suite_S2, plain_suite]) (by decide) rfl rfl rfl rfl rfl

/-- C17: for a registry with a non-empty list whose bodies return a value that
does not depend on the state, the description lines `dry_run` prints are the
same for any two runs that complete, whatever the shuffles (permutations), the
argument vectors (so with or without `-d`, for every repeat value) and the
states they start in: they are the strictly ascending list of the descriptions
of the registered cases whose body returns false. -/
theorem failure_lines_invariant {σ : Type}
    (shuffle1 shuffle2 : List (test_case σ) → List (test_case σ))
    (hperm1 : ∀ l, (shuffle1 l).Perm l) (hperm2 : ∀ l, (shuffle2 l).Perm l)
    (argv1 argv2 : List String) (tests : test_suite σ) (w1 w2 : σ) (o1 o2 : options)
    (hne : tests.test_list ≠ []) (hscan1 : scan_options argv1 = .done o1)
    (hscan2 : scan_options argv2 = .done o2)
    (hfix : ∀ c ∈ tests.test_list, ∀ w w', (c.test w).1 = (c.test w').1) :
    failure_lines (dry_run shuffle1 argv1 tests w1).trace =
        failure_lines (dry_run shuffle2 argv2 tests w2).trace ∧
      (failure_lines (dry_run shuffle1 argv1 tests w1).trace).Sorted (· < ·) ∧
      (∀ d, d ∈ failure_lines (dry_run shuffle1 argv1 tests w1).trace ↔
        ∃ c ∈ tests.test_list, c.desc = d ∧ ∀ w, (c.test w).1 = false) := by
  obtain ⟨hs1, hm1⟩ := dry_run_failure_lines_fixed shuffle1 hperm1 argv1 tests w1 o1 hne hscan1
    hfix
  obtain ⟨hs2, hm2⟩ := dry_run_failure_lines_fixed shuffle2 hperm2 argv2 tests w2 o2 hne hscan2
    hfix
  exact ⟨sorted_lt_ext _ _ hs1 hs2 fun d => (hm1 d).trans (hm2 d).symm, hs1, hm1⟩

/-- Witness of C17: scenario S2 run with `prog -d` and with `prog -r 3` under a
shuffle that reverses the list. -/
theorem failure_lines_invariant_witness :
    failure_lines (dry_run id ["prog", "-d"] suite_S2 ()).trace =
        failure_lines (dry_run List.reverse ["prog", "-r", "3"] suite_S2 ()).trace ∧
      (failure_lines (dry_run id ["prog", "-d"] suite_S2 ()).trace).Sorted (· < ·) ∧
      (∀ d, d ∈ failure_lines (dry_run id ["prog", "-d"] suite_S2 ()).trace ↔
        ∃ c ∈ suite_S2.test_list, c.desc = d ∧ ∀ w, (c.test w).1 = false) :=
  failure_lines_invariant id List.reverse (fun _ => List.Perm.refl _)
    (fun l => List.reverse_perm l) ["prog", "-d"] ["prog", "-r", "3"] suite_S2 () ()
    ⟨true, false, 0⟩ ⟨false, false, 3⟩ (by simp [suite_S2, plain_suite]) (by decide) (by decide)
    (fun _ _ _ _ => rfl)

/-- C18: `dry_run` stores the multiplied and shuffled list back into the
registry: for a registry with a non-empty list of `n` cases, shuffles that
permute, and an argument vector on which the scan completes with a repeat value
`N > 0`, after one call the registry holds `N * n` cases that are a permutation
of `N` copies of the list before the call, and call number `k + 1` of
consecutive calls with the same arguments writes `N ^ (k + 1) * n` ticks. -/
theorem dry_run_stores_list {σ : Type}
    (shuffle : Nat → List (test_case σ) → List (test_case σ))
    (hperm : ∀ j l, (shuffle j l).Perm l) (argv : List String) (tests : test_suite σ) (w : σ)
    (o : options) (hne : tests.test_list ≠ []) (hscan : scan_options argv = .done o)
    (hN : 0 < o.repeat_count) :
    (dry_run (shuffle 0) argv tests w).tests.test_list.length =
        o.repeat_count.toNat * tests.test_list.length ∧
      (dry_run (shuffle 0) argv tests w).tests.test_list.Perm
        (List.replicate o.repeat_count.toNat tests.test_list).flatten ∧
      (∀ k, (ticks (dry_run_nth shuffle argv k tests w).trace).length =
        o.repeat_count.toNat ^ (k + 1) * tests.test_list.length) := by
  have hmax : (max o.repeat_count 1).toNat = o.repeat_count.toNat := by
    rw [max_eq_left (by omega)]
  have hlist := dry_run_done_test_list (shuffle 0) argv tests w o hne hscan
  have hp := schedule_perm (shuffle 0) (hperm 0) o tests.test_list
  rw [hmax] at hp
  refine ⟨?_, ?_, ?_⟩
  · rw [hlist, hp.length_eq, length_replicate_flatten]
  · rw [hlist]
    exact hp
  · intro k
    rw [dry_run_nth_ticks_length argv o hscan k shuffle hperm tests w hne, hmax]

/-- Witness of C18: scenario S2 with `prog -r 2`, every call with a shuffle
that reverses the list. -/
theorem dry_run_stores_list_witness :
    (dry_run List.reverse ["prog", "-r", "2"] suite_S2 ()).tests.test_list.length =
        (2 : Int).toNat * suite_S2.test_list.length ∧
      (dry_run List.reverse ["prog", "-r", "2"] suite_S2 ()).tests.test_list.Perm
        (List.replicate (2 : Int).toNat suite_S2.test_list).flatten ∧
      (∀ k, (ticks (dry_run_nth (fun _ => List.reverse) ["prog", "-r", "2"] k suite_S2
        ()).trace).length = (2 : Int).toNat ^ (k + 1) * suite_S2.test_list.length) :=
  dry_run_stores_list (fun _ => List.reverse) (fun _ l => List.reverse_perm l)
    ["prog", "-r", "2"] suite_S2 () ⟨false, false, 2⟩ (by simp [suite_S2, plain_suite])
    (by decide) (by decide)

/-- C20: the colour flag changes only escape sequences.  For a registry with a
non-empty list whose descriptions are without the byte 0x1B and whose bodies
return a value that does not depend on the state, and two argument vectors on
which the scan completes with `-d` and the same repeat value, the first without
colours and the second with colours (the first with `-c` added at its end is
such a second one), the outputs of `dry_run` with all occurrences of the four
SGR sequences removed are the same text; and in the output with colours every
colour-setting sequence is directly followed, among the SGR sequences, by the
reset `ESC[0m`. -/
theorem dry_run_colors_only_escapes {σ : Type}
    (shuffle1 shuffle2 : List (test_case σ) → List (test_case σ)) (argv1 argv2 : List String)
    (tests : test_suite σ) (w1 w2 : σ) (N : Int) (hne : tests.test_list ≠ [])
    (hscan1 : scan_options argv1 = .done ⟨true, false, N⟩)
    (hscan2 : scan_options argv2 = .done ⟨true, true, N⟩)
    (hesc : ∀ c ∈ tests.test_list, esc ∉ c.desc.toList)
    (hfix : ∀ c ∈ tests.test_list, ∀ w w', (c.test w).1 = (c.test w').1) :
    strip_sgr (stdout (dry_run shuffle1 argv1 tests w1).trace) =
        strip_sgr (stdout (dry_run shuffle2 argv2 tests w2).trace) ∧
      reset_after_each (sgr_of (stdout (dry_run shuffle2 argv2 tests w2).trace)) ∧
      scan_options (argv1 ++ ["-c"]) = .done ⟨true, true, N⟩ := by
  have hs1 : schedule shuffle1 ⟨true, false, N⟩ tests.test_list = multiply N tests.test_list :=
    by simp [schedule]
  have hs2 : schedule shuffle2 ⟨true, true, N⟩ tests.test_list = multiply N tests.test_list :=
    by simp [schedule]
  have hc1 := clean_dry_run shuffle1 argv1 tests w1 _ hne hscan1
    (fun c hc => hesc c (mem_multiply N _ c (hs1 ▸ hc)))
  have hc2 := clean_dry_run shuffle2 argv2 tests w2 _ hne hscan2
    (fun c hc => hesc c (mem_multiply N _ c (hs2 ▸ hc)))
  have hp1 := plain_dry_run_fixed shuffle1 argv1 tests w1 _ hne hscan1
    (fun c => (c.test w1).1) (fun c hc w => hfix c (mem_multiply N _ c (hs1 ▸ hc)) w w1)
  have hp2 := plain_dry_run_fixed shuffle2 argv2 tests w2 _ hne hscan2
    (fun c => (c.test w1).1) (fun c hc w => hfix c (mem_multiply N _ c (hs2 ▸ hc)) w w1)
  rw [hs1] at hp1
  rw [hs2] at hp2
  refine ⟨?_, ?_, ?_⟩
  · rw [strip_sgr_stdout _ hc1, strip_sgr_stdout _ hc2, hp1, hp2]
  · rw [sgr_of_stdout _ hc2]
    exact reset_after_each_dry_run shuffle2 argv2 tests w2 _ hne hscan2 rfl
  · exact scan_from_append_c argv1 0 _ _ hscan1

/-- Witness of C20: scenario S2 with `prog -d -r 2` and `prog -d -r 2 -c`. -/
theorem dry_run_colors_only_escapes_witness :
    strip_sgr (stdout (dry_run id ["prog", "-d", "-r", "2"] suite_S2 ()).trace) =
        strip_sgr (stdout (dry_run id ["prog", "-d", "-r", "2", "-c"] suite_S2 ()).trace) ∧
      reset_after_each
        (sgr_of (stdout (dry_run id ["prog", "-d", "-r", "2", "-c"] suite_S2 ()).trace)) ∧
      scan_options (["prog", "-d", "-r", "2"] ++ ["-c"]) = .done ⟨true, true, 2⟩ :=
  dry_run_colors_only_escapes id id ["prog", "-d", "-r", "2"] ["prog", "-d", "-r", "2", "-c"]
    suite_S2 () () 2 (by simp [suite_S2, plain_suite]) (by decide) (by decide)
    (by
      intro c hc
      simp only [suite_S2, plain_suite, List.mem_cons, List.mem_singleton, List.not_mem_nil,
        or_false] at hc
      rcases hc with rfl | rfl | rfl <;> decide)
    (fun _ _ _ _ => rfl)

end DryRun
